import Mathlib

/-!
Verification development for the `whoami` multi-source profile scraping core.

This file shallowly embeds the data model and the operations of the
`whoami` package (router, orchestrator aggregation, per-platform scrapers,
WBI request signing, and the privacy redaction filter) as executable Lean
definitions, and proves properties of them.  Network and clock effects are
made explicit: every scraper model takes an oracle describing upstream
responses (a `none` response models an HTTP/parse exception caught by the
code) and, where the code reads the clock, an explicit timestamp argument.
Python exceptions crossing a function boundary are modelled with `Except`.
Regular-expression character classes are modelled by their ASCII fragments
(the repository only ever feeds them ASCII-range scraped text).
-/

namespace WhoAmI

/-- Model of an untyped Python value as stored in `ScrapedItem.value` and
in the raw payload bags. -/
inductive PyObj where
  | pnone
  | pbool (b : Bool)
  | pint (n : Int)
  | pstr (s : String)
  | plist (xs : List PyObj)
  | pdict (xs : List (String × PyObj))

/-- `whoami.models.ScrapedItem`: a single piece of scraped information.
The pydantic model is frozen, so a plain structure is a faithful model. -/
structure ScrapedItem where
  category : String
  key : String
  value : PyObj
  url : Option String := none

/-- `whoami.models.ScrapedData`: aggregated result of one scraper run.
`Raw` is the per-platform shape of the raw diagnostic bag; the wall-clock
`scraped_at` default field carries no information and is omitted. -/
structure ScrapedData (Raw : Type) where
  platform : String
  username : Option String := none
  bio : Option String := none
  items : List ScrapedItem := []
  raw : Raw
  source_url : String := ""

/-- `whoami.models.ScraperConfig`. -/
structure ScraperConfig where
  timeout : Nat := 30
  max_items : Nat := 50

/-! ## Privacy filter (`whoami/utils/privacy.py`)

The four patterns of `_PATTERNS` and Python `re.sub` semantics (leftmost
scan, backtracking with greedy preference inside a candidate position,
non-overlapping replacement) are embedded as executable matchers.  Each
matcher receives the character preceding the current position (for the
`\b` assertions) and the remaining text, and returns the length of the
match chosen by the Python engine at that position, if any. -/

def isAsciiDigit (c : Char) : Bool := '0' ≤ c && c ≤ '9'

def isAsciiAlpha (c : Char) : Bool := ('a' ≤ c && c ≤ 'z') || ('A' ≤ c && c ≤ 'Z')

/-- ASCII fragment of the `\w` class used by `\b`. -/
def isWordChar (c : Char) : Bool := isAsciiAlpha c || isAsciiDigit c || c = '_'

/-- ASCII fragment of the `\s` class. -/
def isSpaceChar (c : Char) : Bool :=
  c = ' ' || c = '\t' || c = '\n' || c = '\r' || c = '\x0b' || c = '\x0c'

/-- Class `[a-zA-Z0-9_.+-]` (e-mail local part). -/
def isLocalChar (c : Char) : Bool :=
  isAsciiAlpha c || isAsciiDigit c || c = '_' || c = '.' || c = '+' || c = '-'

/-- Class `[a-zA-Z0-9-]` (e-mail domain head). -/
def isDomAChar (c : Char) : Bool := isAsciiAlpha c || isAsciiDigit c || c = '-'

/-- Class `[a-zA-Z0-9-.]` (e-mail domain tail). -/
def isDomBChar (c : Char) : Bool := isDomAChar c || c = '.'

/-- Class `[-.\s]` (phone separators). -/
def isSepChar (c : Char) : Bool := c = '-' || c = '.' || isSpaceChar c

/-- Match of the domain part `[a-zA-Z0-9-]+\.[a-zA-Z0-9-.]+` at the head
of `rest1` (the text after the `@`), returning its length. -/
def emailDomTail (rest1 : List Char) : Option Nat :=
  let l2 := (rest1.takeWhile isDomAChar).length
  if l2 = 0 then none
  else if (rest1.drop l2).head? = some '.' then
    let rest2 := (rest1.drop l2).tail
    let l3 := (rest2.takeWhile isDomBChar).length
    if l3 = 0 then none else some (l2 + 1 + l3)
  else none

/-- Match of `[a-zA-Z0-9_.+-]+@[a-zA-Z0-9-]+\.[a-zA-Z0-9-.]+` at the head
of `cs`.  All three runs are greedy and none of the fixed characters
(`@`, `.`) belongs to the preceding class, so the Python engine never
backtracks into a run: the maximal-run reading is exact. -/
def emailAt (cs : List Char) : Option Nat :=
  let l1 := (cs.takeWhile isLocalChar).length
  if l1 = 0 then none
  else if (cs.drop l1).head? = some '@' then
    (emailDomTail ((cs.drop l1).tail)).map (fun k => l1 + 1 + k)
  else none

/-- First success over an ordered list of alternatives: the Python engine
tries candidate paths in preference order and keeps the first success. -/
def pick (xs : List α) (f : α → Option β) : Option β := xs.findSome? f

/-- Candidate consumption lengths for `\d{lo,hi}`, in the greedy engine's
preference order (longest first), restricted to those actually available
at the head of `cs`. -/
def digitsChoices (lo hi : Nat) (cs : List Char) : List Nat :=
  (((List.range (hi + 1)).reverse).filter (fun k => lo ≤ k)).filter
    (fun k => (cs.take k).all isAsciiDigit && k ≤ cs.length)

/-- Candidate consumption lengths for an optional single-character atom
(`x?`), in preference order (present first). -/
def optChoices (p : Char → Bool) (cs : List Char) : List Nat :=
  match cs with
  | c :: _ => if p c then [1, 0] else [0]
  | [] => [0]

/-- Candidate consumption lengths for the optional country-prefix group
`(?:\+?\d{1,3}[-.\s]?)?` of the phone pattern, in preference order:
group present (with inner greedy choices) before group absent. -/
def phonePrefixChoices (cs : List Char) : List Nat :=
  ((optChoices (· = '+') cs).flatMap (fun p =>
    (digitsChoices 1 3 (cs.drop p)).flatMap (fun k =>
      (optChoices isSepChar (cs.drop (p + k))).map (fun s => p + k + s))))
  ++ [0]

/-- Match of the phone pattern
`(?:\+?\d{1,3}[-.\s]?)?\(?\d{2,4}\)?[-.\s]?\d{3,4}[-.\s]?\d{4}`
at the head of `cs`, exploring paths in the engine's preference order. -/
def phoneAt (cs : List Char) : Option Nat :=
  pick (phonePrefixChoices cs) fun g =>
    let cs1 := cs.drop g
    pick (optChoices (· = '(') cs1) fun o =>
      let cs2 := cs1.drop o
      pick (digitsChoices 2 4 cs2) fun d1 =>
        let cs3 := cs2.drop d1
        pick (optChoices (· = ')') cs3) fun cl =>
          let cs4 := cs3.drop cl
          pick (optChoices isSepChar cs4) fun s1 =>
            let cs5 := cs4.drop s1
            pick (digitsChoices 3 4 cs5) fun d2 =>
              let cs6 := cs5.drop d2
              pick (optChoices isSepChar cs6) fun s2 =>
                let cs7 := cs6.drop s2
                if (cs7.take 4).all isAsciiDigit && 4 ≤ cs7.length then
                  some (g + o + d1 + cl + s1 + d2 + s2 + 4)
                else none

/-- The `\b` assertion on the left edge of a match whose first character
is a word character: the preceding character must be absent or non-word. -/
def boundaryLeft (prev : Option Char) : Bool :=
  match prev with
  | none => true
  | some c => !isWordChar c

/-- The `\b` assertion on the right edge of a match whose last character
is a word character: the following character must be absent or non-word. -/
def boundaryRight (cs : List Char) : Bool :=
  match cs with
  | [] => true
  | c :: _ => !isWordChar c

/-- Class `[\dXx]` (last character of a Chinese ID-card number). -/
def isIdTail (c : Char) : Bool := isAsciiDigit c || c = 'X' || c = 'x'

/-- Match of `\b\d{17}[\dXx]\b` at the head of `cs` given the preceding
character `prev`. -/
def idCardAt (prev : Option Char) (cs : List Char) : Option Nat :=
  if (cs.take 17).all isAsciiDigit
      && 18 ≤ cs.length
      && ((cs.drop 17).take 1).all isIdTail
      && boundaryLeft prev
      && boundaryRight (cs.drop 18) then
    some 18
  else none

/-- Match of the final `\d{1,3}\b` segment of the IP pattern at the head
of `r`, returning the consumed length. -/
def ipLvl0 (r : List Char) : Option Nat :=
  pick (digitsChoices 1 3 r) fun d =>
    if boundaryRight (r.drop d) then some d else none

/-- Match of one `\d{1,3}\.` segment followed by the rest of the IP
pattern (`next`), returning the total consumed length. -/
def ipLvlStep (next : List Char → Option Nat) (r : List Char) : Option Nat :=
  pick (digitsChoices 1 3 r) fun a =>
    if (r.drop a).head? = some '.' then
      (next ((r.drop a).tail)).map (fun k => a + 1 + k)
    else none

/-- The boundary-free core of the IP pattern:
`\d{1,3}\.\d{1,3}\.\d{1,3}\.\d{1,3}\b`. -/
def ipCore : List Char → Option Nat :=
  ipLvlStep (ipLvlStep (ipLvlStep ipLvl0))

/-- Match of `\b\d{1,3}\.\d{1,3}\.\d{1,3}\.\d{1,3}\b` at the head of `cs`
given the preceding character `prev`. -/
def ipAt (prev : Option Char) (cs : List Char) : Option Nat :=
  if !boundaryLeft prev then none else ipCore cs

/-- One `re.sub` pass: scan left to right; at each position ask the
matcher for the engine's match; on a match emit the replacement and
resume after the consumed text, otherwise keep the character and advance.
`fuel` bounds the recursion (one unit per step; the initial amount
`cs.length` always suffices since every step consumes at least one
character).  The matchers above never return a zero-length match, so the
zero-length branch keeps the character like a failed match. -/
def subFuel (mAt : Option Char → List Char → Option Nat) (repl : List Char) :
    Nat → Option Char → List Char → List Char
  | 0, _, cs => cs
  | _ + 1, _, [] => []
  | fuel + 1, prev, c :: cs =>
    match mAt prev (c :: cs) with
    | some (n + 1) =>
      repl ++ subFuel mAt repl fuel ((c :: cs).take (n + 1)).getLast?
        ((c :: cs).drop (n + 1))
    | some 0 => c :: subFuel mAt repl fuel (some c) cs
    | none => c :: subFuel mAt repl fuel (some c) cs

/-- `pattern.sub(repl, s)` for one of the privacy patterns. -/
def pySub (mAt : Option Char → List Char → Option Nat) (repl : String) (s : String) :
    String :=
  String.mk (subFuel mAt repl.data s.data.length none s.data)

/-- Context-free wrapper for the e-mail matcher (the pattern has no `\b`). -/
def emailM : Option Char → List Char → Option Nat := fun _ => emailAt

/-- Context-free wrapper for the phone matcher (the pattern has no `\b`). -/
def phoneM : Option Char → List Char → Option Nat := fun _ => phoneAt

/-- `whoami.utils.privacy.strip_sensitive`: the four patterns are applied
in the order email, phone, id-card, IP address, each replacing every
non-overlapping occurrence with the literal `[REDACTED]`. -/
def strip_sensitive (s : String) : String :=
  pySub ipAt "[REDACTED]"
    (pySub idCardAt "[REDACTED]"
      (pySub phoneM "[REDACTED]"
        (pySub emailM "[REDACTED]" s)))

/-! ## URL helpers

The scrapers parse URLs with `urllib.parse.urlparse` after normalizing a
missing scheme to `https://`.  Only the path component is consumed, so the
model extracts host and path directly: everything after the first `://`
up to the first of `/?#` is the netloc, and the path is what follows up
to the first of `?#`. -/

/-- The text after the first `://` occurrence, if any. -/
def afterSchemeSep : List Char → Option (List Char)
  | [] => none
  | c :: cs =>
    if List.isPrefixOf [':', '/', '/'] (c :: cs) then some ((c :: cs).drop 3)
    else afterSchemeSep cs

/-- Host-plus-path text of a URL: after the scheme separator when present
(the code prepends `https://` otherwise, which leaves host and path
unchanged).  Faithful for URLs whose first `:` is the scheme separator —
every URL the scrapers accept. -/
def afterScheme (url : String) : List Char :=
  (afterSchemeSep url.data).getD url.data

/-- `str.split(sep)` semantics: empty segments are kept. -/
def splitOnCharList (sep : Char) : List Char → List (List Char)
  | [] => [[]]
  | c :: cs =>
    if c = sep then [] :: splitOnCharList sep cs
    else
      match splitOnCharList sep cs with
      | g :: gs => (c :: g) :: gs
      | [] => [[c]]

/-- `urlparse(...).path` of a normalized URL: what follows the netloc
(which ends at the first of `/?#`), truncated at the query or fragment. -/
def urlPathChars (url : String) : List Char :=
  let rest := afterScheme url
  let netloc := rest.takeWhile (fun c => c ≠ '/' && c ≠ '?' && c ≠ '#')
  (rest.drop netloc.length).takeWhile (fun c => c ≠ '?' && c ≠ '#')

/-- `[p for p in parsed.path.strip("/").split("/") if p]`: the `strip("/")`
only affects empty end segments, which the truthiness filter drops anyway,
so splitting and filtering is an exact model. -/
def pathParts (url : String) : List String :=
  ((splitOnCharList '/' (urlPathChars url)).map String.mk).filter (fun p => p ≠ "")

/-- `GitLabScraper._extract_username`: first path segment, or a raised
`ValueError` (modelled as `Except.error`) when the path has none. -/
def gitlab_extract_username (url : String) : Except String String :=
  match pathParts url with
  | [] => .error ("Cannot extract GitLab username from URL: " ++ url)
  | p :: _ => .ok p

/-- `RedditScraper._extract_username`: second path segment when the first
is `user` or `u`, otherwise a raised `ValueError`. -/
def reddit_extract_username (url : String) : Except String String :=
  match pathParts url with
  | p0 :: p1 :: _ =>
    if p0 = "user" || p0 = "u" then .ok p1
    else .error ("Cannot extract Reddit username from URL: " ++ url)
  | _ => .error ("Cannot extract Reddit username from URL: " ++ url)

/-- `re.search(r"space\.bilibili\.com/(\d+)", url)` for
`bilibili._extract_mid`: leftmost occurrence of the literal followed by at
least one digit; the capture is the maximal digit run. -/
def extractMidFrom : List Char → Option String
  | [] => none
  | c :: cs =>
    if List.isPrefixOf "space.bilibili.com/".data (c :: cs) then
      let ds := ((c :: cs).drop "space.bilibili.com/".length).takeWhile isAsciiDigit
      if ds.isEmpty then extractMidFrom cs else some (String.mk ds)
    else extractMidFrom cs

/-- `bilibili._extract_mid`. -/
def extract_mid (url : String) : Option String := extractMidFrom url.data

/-! ## WBI signing (`whoami/scrapers/bilibili.py`)

`_sign_wbi` manipulates a Python `dict[str, Any]`, modelled as an ordered
association list (Python dicts preserve insertion order and have unique
keys).  The clock read `round(time.time())` is the explicit argument `t`. -/

/-- `str(v)` for the scalar values the signing code handles; container
reprs are not modelled (the code only ever signs scalar parameters). -/
def pyStr : PyObj → String
  | .pstr s => s
  | .pint n => toString n
  | .pbool b => if b then "True" else "False"
  | .pnone => "None"
  | .plist _ => ""
  | .pdict _ => ""

/-- `d[k] = v` on an insertion-ordered dict: overwrite in place when the
key is present, append otherwise. -/
def dictSet (l : List (String × α)) (k : String) (v : α) : List (String × α) :=
  if l.any (fun kv => kv.1 = k) then
    l.map (fun kv => if kv.1 = k then (k, v) else kv)
  else l ++ [(k, v)]

/-- Python string `<`: lexicographic comparison of code points. -/
def charListLt : List Char → List Char → Bool
  | _, [] => false
  | [], _ :: _ => true
  | c :: cs, d :: ds =>
    if c.toNat < d.toNat then true
    else if d.toNat < c.toNat then false
    else charListLt cs ds

/-- Python string `<` on `String`. -/
def strLt (a b : String) : Bool := charListLt a.data b.data

/-- Insert into a list sorted by key (keys are unique in a dict, so
`sorted(d.items())` never compares values). -/
def insertSorted (x : String × α) : List (String × α) → List (String × α)
  | [] => [x]
  | y :: ys => if strLt x.1 y.1 then x :: y :: ys else y :: insertSorted x ys

/-- `sorted(params.items())` under unique keys. -/
def sortByKey (l : List (String × α)) : List (String × α) :=
  l.foldr insertSorted []

/-- `re.sub(r"[!'()*]", "", s)`: drop the five filtered characters. -/
def stripBad (s : String) : String :=
  String.mk (s.data.filter (fun c => !(c = '!' || c = '\'' || c = '(' || c = ')' || c = '*')))

/-- Upper-case hex digit of a value below 16. -/
def hexUpperDigit (n : Nat) : Char :=
  if n < 10 then Char.ofNat (48 + n) else Char.ofNat (55 + n)

/-- Bytes `urllib.parse.quote` never escapes: ALPHA / DIGIT / `_.-~`. -/
def isUrlSafe (b : Nat) : Bool :=
  (65 ≤ b && b ≤ 90) || (97 ≤ b && b ≤ 122) || (48 ≤ b && b ≤ 57)
    || b = 95 || b = 46 || b = 45 || b = 126

/-- UTF-8 encoding of one character (as byte values). -/
def utf8Bytes (c : Char) : List Nat :=
  let n := c.toNat
  if n < 128 then [n]
  else if n < 2048 then [192 + n / 64, 128 + n % 64]
  else if n < 65536 then [224 + n / 4096, 128 + (n / 64) % 64, 128 + n % 64]
  else [240 + n / 262144, 128 + (n / 4096) % 64, 128 + (n / 64) % 64, 128 + n % 64]

/-- `s.encode()`: the UTF-8 bytes of a string. -/
def strBytes (s : String) : List Nat := s.data.flatMap utf8Bytes

/-- `urllib.parse.quote_plus` with empty `safe` (the `urlencode` default):
space becomes `+`, safe bytes pass through, all else is percent-encoded
byte-wise over UTF-8. -/
def quotePlus (s : String) : String :=
  String.join ((strBytes s).map (fun b =>
    if isUrlSafe b then String.mk [Char.ofNat b]
    else if b = 32 then "+"
    else String.mk ['%', hexUpperDigit (b / 16), hexUpperDigit (b % 16)]))

/-- `urllib.parse.urlencode` over string-valued pairs. -/
def urlencode (l : List (String × String)) : String :=
  String.intercalate "&" (l.map (fun kv => quotePlus kv.1 ++ "=" ++ quotePlus kv.2))

/-! ### MD5 (`hashlib.md5(...).hexdigest()`) -/

/-- The 64 MD5 round constants (floor(abs(sin(i+1)) * 2^32)). -/
def md5K : List Nat := [
    3614090360, 3905402710, 606105819, 3250441966, 4118548399, 1200080426, 2821735955, 4249261313,
    1770035416, 2336552879, 4294925233, 2304563134, 1804603682, 4254626195, 2792965006, 1236535329,
    4129170786, 3225465664, 643717713, 3921069994, 3593408605, 38016083, 3634488961, 3889429448,
    568446438, 3275163606, 4107603335, 1163531501, 2850285829, 4243563512, 1735328473, 2368359562,
    4294588738, 2272392833, 1839030562, 4259657740, 2763975236, 1272893353, 4139469664, 3200236656,
    681279174, 3936430074, 3572445317, 76029189, 3654602809, 3873151461, 530742520, 3299628645,
    4096336452, 1126891415, 2878612391, 4237533241, 1700485571, 2399980690, 4293915773, 2240044497,
    1873313359, 4264355552, 2734768916, 1309151649, 4149444226, 3174756917, 718787259, 3951481745]

/-- The 64 MD5 per-round left-rotation amounts. -/
def md5S : List Nat := [
    7, 12, 17, 22, 7, 12, 17, 22, 7, 12, 17, 22, 7, 12, 17, 22,
    5, 9, 14, 20, 5, 9, 14, 20, 5, 9, 14, 20, 5, 9, 14, 20,
    4, 11, 16, 23, 4, 11, 16, 23, 4, 11, 16, 23, 4, 11, 16, 23,
    6, 10, 15, 21, 6, 10, 15, 21, 6, 10, 15, 21, 6, 10, 15, 21]

/-- Truncation to a 32-bit machine word. -/
def u32 (n : Nat) : Nat := n % 4294967296

/-- 32-bit left rotation (arguments below 2^32). -/
def rotl (x n : Nat) : Nat := u32 ((x <<< n) ||| (x >>> (32 - n)))

/-- Bitwise complement on 32 bits (argument below 2^32). -/
def md5Not (x : Nat) : Nat := 4294967295 - x

def md5F (b c d : Nat) : Nat := (b &&& c) ||| (md5Not b &&& d)

def md5G (b c d : Nat) : Nat := (d &&& b) ||| (md5Not d &&& c)

def md5H (b c d : Nat) : Nat := b ^^^ c ^^^ d

def md5I (b c d : Nat) : Nat := c ^^^ (b ||| md5Not d)

/-- MD5 chaining state. -/
structure MD5State where
  a : Nat
  b : Nat
  c : Nat
  d : Nat

/-- MD5 padding: append `0x80`, zero-fill to 56 mod 64, then the original
bit length as 8 little-endian bytes. -/
def md5Pad (msg : List Nat) : List Nat :=
  let len := msg.length
  let zeros := (119 - len % 64) % 64
  let bitLen := (len * 8) % 18446744073709551616
  msg ++ 128 :: List.replicate zeros 0
    ++ (List.range 8).map (fun i => (bitLen >>> (8 * i)) % 256)

/-- Little-endian byte-list value. -/
def leNat (bs : List Nat) : Nat := bs.foldr (fun b acc => b + 256 * acc) 0

/-- One MD5 round applied to the working state. -/
def md5Step (M : Nat → Nat) (st : MD5State) (i : Nat) : MD5State :=
  let f :=
    if i < 16 then md5F st.b st.c st.d
    else if i < 32 then md5G st.b st.c st.d
    else if i < 48 then md5H st.b st.c st.d
    else md5I st.b st.c st.d
  let g :=
    if i < 16 then i
    else if i < 32 then (5 * i + 1) % 16
    else if i < 48 then (3 * i + 5) % 16
    else (7 * i) % 16
  let tmp := u32 (f + st.a + md5K.getD i 0 + M g)
  ⟨st.d, u32 (st.b + rotl tmp (md5S.getD i 0)), st.b, st.c⟩

/-- Compress one 64-byte block into the chaining state. -/
def md5Block (st : MD5State) (block : List Nat) : MD5State :=
  let ws := (List.range 16).map (fun i => leNat ((block.drop (4 * i)).take 4))
  let fin := (List.range 64).foldl (md5Step (fun g => ws.getD g 0)) st
  ⟨u32 (st.a + fin.a), u32 (st.b + fin.b), u32 (st.c + fin.c), u32 (st.d + fin.d)⟩

/-- Split a padded message into 64-byte blocks (`fuel` bounds recursion;
`bs.length` always suffices). -/
def md5Chunks : Nat → List Nat → List (List Nat)
  | 0, _ => []
  | _ + 1, [] => []
  | fuel + 1, bs => bs.take 64 :: md5Chunks fuel (bs.drop 64)

/-- MD5 digest (16 bytes) of a byte sequence. -/
def md5Bytes (msg : List Nat) : List Nat :=
  let padded := md5Pad msg
  let fin := (md5Chunks (padded.length + 1) padded).foldl md5Block
    ⟨1732584193, 4023233417, 2562383102, 271733878⟩
  [fin.a, fin.b, fin.c, fin.d].flatMap
    (fun w => (List.range 4).map (fun i => (w >>> (8 * i)) % 256))

/-- Lower-case hex digit of a value below 16. -/
def hexLowerDigit (n : Nat) : Char :=
  if n < 10 then Char.ofNat (48 + n) else Char.ofNat (87 + n)

/-- `hashlib.md5(s.encode()).hexdigest()`. -/
def md5Hex (s : String) : String :=
  String.mk ((md5Bytes (strBytes s)).flatMap
    (fun b => [hexLowerDigit (b / 16), hexLowerDigit (b % 16)]))

/-! ### The signing function itself -/

/-- The fixed 64-entry WBI permutation table `_MIXIN_KEY_ENC_TAB`. -/
def mixinKeyEncTab : List Nat := [
    46, 47, 18, 2, 53, 8, 23, 32, 15, 50, 10, 31, 58, 3, 45, 35,
    27, 43, 5, 49, 33, 9, 42, 19, 29, 28, 14, 39, 12, 38, 41, 13,
    37, 48, 7, 16, 24, 55, 40, 61, 26, 17, 0, 1, 60, 51, 30, 4,
    22, 25, 54, 21, 56, 59, 6, 63, 57, 62, 11, 36, 20, 34, 44, 52]

/-- `bilibili._get_mixin_key`: permute the concatenated keys through the
table, then keep the first 32 characters. -/
def getMixinKey (orig : String) : String :=
  String.mk ((mixinKeyEncTab.map (fun i => orig.data.getD i ' ')).take 32)

/-- `bilibili._sign_wbi`: the returned dict.  `t` is the clock value
`round(time.time())`. -/
def sign_wbi (params : List (String × PyObj)) (img_key sub_key : String) (t : Nat) :
    List (String × String) :=
  let mixin_key := getMixinKey (img_key ++ sub_key)
  let p1 := dictSet params "wts" (.pint t)
  let p2 := sortByKey p1
  let p3 := p2.map (fun kv => (kv.1, stripBad (pyStr kv.2)))
  let query := urlencode p3
  let wbi_sign := md5Hex (query ++ mixin_key)
  dictSet p3 "w_rid" wbi_sign

/-- The caller-visible state of the `params` dict after `_sign_wbi`
returns: the function assigns `params["wts"]` in place on the caller's
dict before rebinding the local name to new dicts, so the input gains
(only) the overwritten `wts` entry. -/
def sign_wbi_paramsAfter (params : List (String × PyObj)) (t : Nat) :
    List (String × PyObj) :=
  dictSet params "wts" (.pint t)

/-! ## GitLab scraper (`whoami/scrapers/gitlab.py`)

Upstream responses are given by a `GLNet` oracle; a `none` response models
a request that raised (HTTP error, bad payload).  JSON dictionaries are
modelled by structures whose `Option` fields are the keys the code reads
(`.get` of a missing key is `none`). -/

/-- The fields of a GitLab `namespace` object the code reads. -/
structure GLNamespace where
  kind : Option String := none
  path : Option String := none
  name : Option String := none
  web_url : Option String := none
  bio : Option String := none
  avatar_url : Option String := none

/-- The fields of a GitLab project object the code reads. -/
structure GLProject where
  nspace : GLNamespace := {}
  name : Option String := none
  description : Option String := none
  language : Option String := none
  star_count : Option Int := none
  forks_count : Option Int := none
  web_url : Option String := none

/-- Upstream oracle for the four GitLab API requests the scraper makes. -/
structure GLNet where
  probe : String → String → Option GLProject
  search : String → Option (List GLProject)
  topStarred : Option (List GLProject)
  userProjects : Nat → Nat → Option (List GLProject)

/-- Decimal value of a digit run. -/
def digitsToNat (ds : List Char) : Nat :=
  ds.foldl (fun acc c => 10 * acc + (c.toNat - 48)) 0

/-- `re.search(r"/user/avatar/(\d+)/", avatar_url)`: leftmost occurrence
of the literal followed by a nonempty digit run and a slash. -/
def extractUserIdFrom : List Char → Option Nat
  | [] => none
  | c :: cs =>
    if List.isPrefixOf "/user/avatar/".data (c :: cs) then
      let after := (c :: cs).drop "/user/avatar/".length
      let ds := after.takeWhile isAsciiDigit
      if !ds.isEmpty && (after.drop ds.length).take 1 = ['/'] then some (digitsToNat ds)
      else extractUserIdFrom cs
    else extractUserIdFrom cs

/-- `GitLabScraper._extract_user_id_from_namespace`. -/
def gitlab_extract_user_id (ns : GLNamespace) : Option Nat :=
  extractUserIdFrom (ns.avatar_url.getD "").data

/-- ASCII `str.lower()`. -/
def pyLower (s : String) : String := String.mk (s.data.map Char.toLower)

/-- ASCII `str.upper()`. -/
def pyUpper (s : String) : String := String.mk (s.data.map Char.toUpper)

/-- Strategy 1: probe conventionally-named projects under the candidate
username; the first probe whose owning namespace is a user namespace for
the candidate wins, failed probes (exceptions) and non-matching projects
are skipped. -/
def gitlab_strategy1 (net : GLNet) (username : String) :
    Option (Option Nat × GLNamespace) :=
  [username, pyLower username, pyUpper username, "dotfiles", "config"].findSome?
    (fun name =>
      match net.probe username name with
      | none => none
      | some project =>
        let ns := project.nspace
        if ns.kind = some "user" && ns.path = some username then
          some (gitlab_extract_user_id ns, ns)
        else none)

/-- Scan a project listing for one owned by the candidate's user
namespace (shared by strategies 2 and 3). -/
def gitlab_scanProjects (projects : List GLProject) (username : String) :
    Option (Option Nat × GLNamespace) :=
  projects.findSome? (fun p =>
    if p.nspace.path = some username && p.nspace.kind = some "user" then
      some (gitlab_extract_user_id p.nspace, p.nspace)
    else none)

/-- Strategy 2: keyword search across public projects. -/
def gitlab_strategy2 (net : GLNet) (username : String) :
    Option (Option Nat × GLNamespace) :=
  match net.search username with
  | none => none
  | some ps => gitlab_scanProjects ps username

/-- Strategy 3: scan one fixed-size page (100) of top-starred projects;
an exception here is caught by the enclosing handler, which returns the
no-result pair. -/
def gitlab_strategy3 (net : GLNet) (username : String) :
    Option (Option Nat × GLNamespace) :=
  match net.topStarred with
  | none => none
  | some ps => gitlab_scanProjects ps username

/-- `GitLabScraper._fetch_user_id_and_data`: the three strategies in
order, each tried only when every earlier one missed; `none` models the
Python `(None, None)`. -/
def gitlab_fetch_user_id_and_data (net : GLNet) (username : String) :
    Option (Option Nat × GLNamespace) :=
  gitlab_strategy1 net username <|> gitlab_strategy2 net username
    <|> gitlab_strategy3 net username

/-- `GitLabScraper._fetch_projects` (`per_page = min(max_items, 100)`). -/
def gitlab_fetch_projects (net : GLNet) (uid : Nat) (max_items : Nat) :
    Option (List GLProject) :=
  net.userProjects uid (min max_items 100)

/-- Lift an optional string into a raw Python value (`None` when absent). -/
def optPy : Option String → PyObj
  | some s => .pstr s
  | none => .pnone

/-- `GitLabScraper._build_profile_items`: `name` and `path` (as
`username`), skipping missing and empty values. -/
def gitlab_build_profile_items (user : GLNamespace) : List ScrapedItem :=
  (match user.name with
   | some v => if v ≠ "" then
       [{ category := "profile", key := "name", value := .pstr v, url := user.web_url }]
     else []
   | none => []) ++
  (match user.path with
   | some v => if v ≠ "" then
       [{ category := "profile", key := "username", value := .pstr v, url := user.web_url }]
     else []
   | none => [])

/-- `GitLabScraper._build_project_items`. -/
def gitlab_build_project_items (projects : List GLProject) : List ScrapedItem :=
  projects.map (fun p =>
    { category := "project",
      key := p.name.getD "unknown",
      value := .pdict [("description", optPy p.description), ("language", optPy p.language),
        ("stars", .pint (p.star_count.getD 0)), ("forks", .pint (p.forks_count.getD 0))],
      url := p.web_url })

/-- The GitLab raw bag: empty on failure, else user namespace plus
project list. -/
inductive GLRaw where
  | empty
  | bag (user : GLNamespace) (projects : List GLProject)

/-- `GitLabScraper.scrape`.  The unguarded `_extract_username` call makes
the whole call raise (`Except.error`) on a URL with no path segment;
`user_id` of `None` or `0` (Python falsiness) yields the thin Record. -/
def gitlabScrape (net : GLNet) (url : String) (cfg : ScraperConfig) :
    Except String (ScrapedData GLRaw) := do
  let username ← gitlab_extract_username url
  match gitlab_fetch_user_id_and_data net username with
  | none =>
    pure { platform := "GitLab", username := some username, raw := .empty, source_url := url }
  | some (uidOpt, userData) =>
    match uidOpt with
    | none =>
      pure { platform := "GitLab", username := some username, raw := .empty, source_url := url }
    | some uid =>
      if uid = 0 then
        pure { platform := "GitLab", username := some username, raw := .empty, source_url := url }
      else
        let projectsData := gitlab_fetch_projects net uid cfg.max_items
        let items := gitlab_build_profile_items userData ++
          (match projectsData with
           | some ps => gitlab_build_project_items ps
           | none => [])
        let usernameOut := match userData.path with
          | some p => if p ≠ "" then some p else some username
          | none => some username
        pure { platform := "GitLab", username := usernameOut, bio := userData.bio,
               items := items, raw := .bag userData (projectsData.getD []),
               source_url := url }

/-! ## Reddit scraper (`whoami/scrapers/reddit.py`) -/

/-- The `subreddit` sub-object of the about payload (treated as absent
when missing or not a dict). -/
structure RedditSubreddit where
  public_description : Option String := none

/-- The fields of `about["data"]` the code reads. -/
structure RedditAboutData where
  name : Option String := none
  link_karma : Option PyObj := none
  comment_karma : Option PyObj := none
  total_karma : Option PyObj := none
  created_utc : Option PyObj := none
  subreddit : Option RedditSubreddit := none

/-- The about payload. -/
structure RedditAbout where
  data : RedditAboutData := {}

/-- The fields of a post/comment child's `data` the code reads. -/
structure RedditPost where
  title : Option String := none
  subreddit : Option String := none
  score : Option Int := none
  num_comments : Option Int := none
  permalink : Option String := none

/-- A listing payload (`data.children`). -/
structure RedditListing where
  children : List RedditPost := []

/-- Upstream oracle for the three concurrent Reddit requests; each `none`
models a fetch helper that caught an exception and returned `None`. -/
structure RedditNet where
  about : Option RedditAbout := none
  posts : Option RedditListing := none
  comments : Option RedditListing := none

/-- The Reddit raw bag (`about` / `posts` / `comments`, empty dict when a
fetch failed). -/
structure RedditRaw where
  about : Option RedditAbout := none
  posts : Option RedditListing := none
  comments : Option RedditListing := none

/-- Python slicing `s[:n]` on a string. -/
def pyTake (n : Nat) (s : String) : String := String.mk (s.data.take n)

/-- One `field_map` entry of `RedditScraper._build_profile_items`:
emitted when the value is present, not `None`, and not the empty
string. -/
def redditFieldItem (k : String) (v : Option PyObj) (u : Option String) :
    List ScrapedItem :=
  match v with
  | none => []
  | some .pnone => []
  | some (.pstr s) => if s = "" then [] else [⟨"profile", k, .pstr s, u⟩]
  | some w => [⟨"profile", k, w, u⟩]

/-- `RedditScraper._build_profile_items`. -/
def reddit_build_profile_items (about : RedditAbout) : List ScrapedItem :=
  let d := about.data
  let profile_url := some ("https://www.reddit.com/user/" ++ d.name.getD "")
  (match d.name with
   | some v => if v ≠ "" then [⟨"profile", "username", .pstr v, profile_url⟩] else []
   | none => []) ++
  redditFieldItem "link_karma" d.link_karma profile_url ++
  redditFieldItem "comment_karma" d.comment_karma profile_url ++
  redditFieldItem "total_karma" d.total_karma profile_url ++
  redditFieldItem "account_created" d.created_utc profile_url

/-- `RedditScraper._build_post_items`: one item per child with a
non-empty title, the title truncated to 100 characters as key. -/
def reddit_build_post_items (posts : RedditListing) : List ScrapedItem :=
  posts.children.flatMap (fun child =>
    let title := child.title.getD ""
    if title ≠ "" then
      [⟨"post", pyTake 100 title,
        .pdict [("subreddit", optPy child.subreddit),
          ("score", .pint (child.score.getD 0)),
          ("num_comments", .pint (child.num_comments.getD 0))],
        some ("https://www.reddit.com" ++ child.permalink.getD "")⟩]
    else [])

/-- `subreddit_counts[s] = subreddit_counts.get(s, 0) + 1` on an
insertion-ordered dict. -/
def bumpCount (acc : List (String × Nat)) (sr : String) : List (String × Nat) :=
  if acc.any (fun kv => kv.1 = sr) then
    acc.map (fun kv => if kv.1 = sr then (kv.1, kv.2 + 1) else kv)
  else acc ++ [(sr, 1)]

/-- Count comments per subreddit (truthy subreddits only), in
first-occurrence order. -/
def redditCountSubs (children : List RedditPost) : List (String × Nat) :=
  children.foldl (fun acc child =>
    match child.subreddit with
    | some sr => if sr ≠ "" then bumpCount acc sr else acc
    | none => acc) []

/-- Stable insertion for `sorted(..., key=lambda x: x[1], reverse=True)`:
an element goes before the first strictly smaller count. -/
def insertDescByCount (x : String × Nat) : List (String × Nat) → List (String × Nat)
  | [] => [x]
  | y :: ys => if y.2 < x.2 then x :: y :: ys else y :: insertDescByCount x ys

/-- `RedditScraper._build_comment_items`. -/
def reddit_build_comment_items (comments : RedditListing) : List ScrapedItem :=
  let counts := (redditCountSubs comments.children).foldl
    (fun acc x => insertDescByCount x acc) []
  counts.map (fun kv =>
    ⟨"activity", "comments_in_" ++ kv.1, .pint (kv.2 : Int),
      some ("https://www.reddit.com/r/" ++ kv.1)⟩)

/-- `RedditScraper.scrape`: raises (`Except.error`) when the URL has no
`user`/`u` username segment; otherwise builds items from the three
independent responses. -/
def redditScrape (net : RedditNet) (url : String) :
    Except String (ScrapedData RedditRaw) := do
  let username ← reddit_extract_username url
  let items :=
    (match net.about with
     | some a => reddit_build_profile_items a
     | none => []) ++
    (match net.posts with
     | some p => reddit_build_post_items p
     | none => []) ++
    (match net.comments with
     | some c => reddit_build_comment_items c
     | none => [])
  let bio := match net.about with
    | some a =>
      match a.data.subreddit with
      | some sr => sr.public_description
      | none => none
    | none => none
  pure { platform := "Reddit", username := some username, bio := bio, items := items,
         raw := { about := net.about, posts := net.posts, comments := net.comments },
         source_url := url }

/-! ## Bilibili scraper (`whoami/scrapers/bilibili.py`)

`_init_session`'s first request (the warm-up GET of the home page) is
awaited outside any `try`, so a network failure there raises out of
`scrape`; the oracle carries it as `warmup : Except String Unit`.  The
spi/cookie request that follows is wrapped in `try/except: pass` and
only populates cookies, which the response oracle absorbs.  The signed
video request is a function of the signed parameter dict, keeping the
signing step in the dataflow. -/

/-- `card.level_info`. -/
structure BiliLevelInfo where
  current_level : Option Int := none

/-- The fields of the card object `_parse_card` reads. -/
structure BiliCardInner where
  name : Option String := none
  sign : Option String := none
  level_info : BiliLevelInfo := {}
  face : Option String := none
  sex : Option String := none

/-- `card_resp["data"]`. -/
structure BiliCardData where
  card : BiliCardInner := {}
  archive_count : Option Int := none
  like_num : Option Int := none

/-- The card API response. -/
structure BiliCardResp where
  code : Int := 0
  data : BiliCardData := {}

/-- `stat_resp["data"]`. -/
structure BiliStatData where
  follower : Option Int := none
  following : Option Int := none

/-- The relation/stat API response. -/
structure BiliStatResp where
  code : Int := 0
  data : BiliStatData := {}

/-- The two key URLs of the nav response (`.get(..., "")`). -/
structure BiliNavResp where
  img_url : String := ""
  sub_url : String := ""

/-- A video entry of the search response (`v.get` fields). -/
structure BiliVideo where
  title : Option String := none
  bvid : Option String := none
  play : Option Int := none

/-- `video_resp["data"]["list"]`. -/
structure BiliVideoList where
  vlist : List BiliVideo := []

/-- `video_resp["data"]`. -/
structure BiliVideoData where
  list : BiliVideoList := {}

/-- The video search API response. -/
structure BiliVideoResp where
  code : Int := 0
  data : BiliVideoData := {}

/-- Upstream oracle for the Bilibili requests.  `warmup` is the
unguarded warm-up GET of `_init_session`: `Except.error` is a raised
network failure that propagates out of `scrape`.  For the API requests
(each inside a `try`) `none` models a raised request or JSON decode. -/
structure BiliNet where
  warmup : Except String Unit := Except.ok ()
  card : Option BiliCardResp := none
  relStat : Option BiliStatResp := none
  nav : Option BiliNavResp := none
  videoSearch : List (String × String) → Option BiliVideoResp := fun _ => none
  videoFallback : Option BiliVideoResp := none

/-- One value of the Bilibili raw bag. -/
inductive BiliRawV where
  | err (msg : String)
  | card (c : BiliCardInner)
  | stat (s : BiliStatData)
  | videos (d : BiliVideoData)

/-- `bilibili._parse_card`: username, bio (`sign or None`), profile and
stats items (truthiness-guarded except the two `is not None` counters),
and the card object for the raw bag. -/
def bilibili_parse_card (data : BiliCardResp) :
    Option String × Option String × List ScrapedItem × BiliCardInner :=
  let card := data.data.card
  let extra := data.data
  let bio := match card.sign with
    | some s => if s = "" then none else some s
    | none => none
  let items :=
    (match card.level_info.current_level with
     | some lv => if lv ≠ 0 then [⟨"profile", "level", .pint lv, none⟩] else []
     | none => []) ++
    (match card.face with
     | some f => if f ≠ "" then [⟨"profile", "avatar", .pstr f, none⟩] else []
     | none => []) ++
    (match card.sex with
     | some s => if s ≠ "" then [⟨"profile", "sex", .pstr s, none⟩] else []
     | none => []) ++
    (match extra.archive_count with
     | some n => [⟨"stats", "archive_count", .pint n, none⟩]
     | none => []) ++
    (match extra.like_num with
     | some n => [⟨"stats", "total_likes", .pint n, none⟩]
     | none => [])
  (card.name, bio, items, card)

/-- `bilibili._parse_videos`: one item per entry of the first
`max_items` videos; the key is the raw title (empty when absent). -/
def bilibili_parse_videos (data : BiliVideoResp) (max_items : Nat) : List ScrapedItem :=
  (data.data.list.vlist.take max_items).map (fun v =>
    let title := v.title.getD ""
    let bvid := v.bvid.getD ""
    let play := v.play.getD 0
    { category := "video", key := title,
      value := .pdict [("views", .pint play), ("bvid", .pstr bvid)],
      url := if bvid ≠ "" then some ("https://www.bilibili.com/video/" ++ bvid) else none })

/-- Text after the last `/` (`rsplit("/", 1)[-1]`). -/
def afterLastSlash (u : String) : String :=
  String.mk ((u.data.reverse.takeWhile (fun c => c ≠ '/')).reverse)

/-- Key derivation of `_get_wbi_keys`:
`url.rsplit("/", 1)[-1].split(".")[0] if url else ""`. -/
def wbiKeyOfUrl (u : String) : String :=
  if u = "" then "" else String.mk ((afterLastSlash u).data.takeWhile (fun c => c ≠ '.'))

/-- The body of `BilibiliScraper.scrape` after the mid check and the
session warm-up: every API request sits inside a `try`, so this part is
total.  `t` is the clock value used for the `wts` parameter. -/
def bilibiliScrapeBody (net : BiliNet) (url mid : String) (cfg : ScraperConfig)
    (t : Nat) : ScrapedData (List (String × BiliRawV)) :=
    let cardRes := match net.card with
      | some resp => if resp.code = 0 then some (bilibili_parse_card resp) else none
      | none => none
    let (username, bio, items1, raw1) := match cardRes with
      | some (u, b, its, craw) => (u, b, its, [("card", BiliRawV.card craw)])
      | none => (none, none, [], [])
    let (items2, raw2) := match net.relStat with
      | some resp =>
        if resp.code = 0 then
          ([⟨"stats", "followers", .pint (resp.data.follower.getD 0), none⟩,
            ⟨"stats", "following", .pint (resp.data.following.getD 0), none⟩],
           [("stat", BiliRawV.stat resp.data)])
        else ([], [])
      | none => ([], [])
    let wbiTry := match net.nav with
      | none => none
      | some nav =>
        let img_key := wbiKeyOfUrl nav.img_url
        let sub_key := wbiKeyOfUrl nav.sub_url
        if img_key ≠ "" && sub_key ≠ "" then
          let signed := sign_wbi [("mid", .pstr mid), ("ps", .pint 20), ("pn", .pint 1)]
            img_key sub_key t
          match net.videoSearch signed with
          | some vresp =>
            if vresp.code = 0 then
              some (bilibili_parse_videos vresp cfg.max_items,
                [("videos", BiliRawV.videos vresp.data)])
            else none
          | none => none
        else none
    let (items3, raw3) := match wbiTry with
      | some x => x
      | none =>
        match net.videoFallback with
        | some vresp =>
          if vresp.code = 0 then
            (bilibili_parse_videos vresp cfg.max_items,
             [("videos", BiliRawV.videos vresp.data)])
          else ([], [])
        | none => ([], [])
    { platform := "Bilibili", username := username, bio := bio,
      items := items1 ++ items2 ++ items3,
      raw := raw1 ++ raw2 ++ raw3, source_url := url }

/-- `BilibiliScraper.scrape`: an unresolvable URL yields a Record whose
raw bag carries only the error note, before any network interaction;
otherwise the unguarded warm-up request runs first and its failure
raises out of `scrape` (`Except.error`); after a successful warm-up
every request is guarded and a Record always comes back. -/
def bilibiliScrape (net : BiliNet) (url : String) (cfg : ScraperConfig) (t : Nat) :
    Except String (ScrapedData (List (String × BiliRawV))) :=
  match extract_mid url with
  | none =>
    .ok { platform := "Bilibili",
          raw := [("error", .err "Could not extract user mid from URL")],
          source_url := url }
  | some mid =>
    match net.warmup with
    | .error e => .error e
    | .ok _ => .ok (bilibiliScrapeBody net url mid cfg t)

/-! ## Generic (catch-all) scraper (`whoami/scrapers/generic.py`)

The trafilatura extraction pass is an external library call; the oracle
supplies its result for the fetched page (`none` models a raised call or
a non-dict result). -/

/-- The extraction fields the code reads. -/
structure GenExtracted where
  title : Option String := none
  author : Option String := none
  text : Option String := none
  description : Option String := none

/-- Upstream oracle for the catch-all scraper. -/
structure GenNet where
  html : Option String := none
  extracted : Option GenExtracted := none

/-- `str.removeprefix`. -/
def removePre (p s : String) : String :=
  if p.data.isPrefixOf s.data then String.mk (s.data.drop p.data.length) else s

/-- `GenericScraper._extract_domain`: netloc, or the first path segment
for scheme-less parses, with a `www.` prefix stripped. -/
def extract_domain (url : String) : String :=
  let rest := afterScheme url
  let netloc := rest.takeWhile (fun c => c ≠ '/' && c ≠ '?' && c ≠ '#')
  let host :=
    if netloc.isEmpty then (splitOnCharList '/' (urlPathChars url)).headD []
    else netloc
  removePre "www." (String.mk host)

/-- ASCII `str.strip()`. -/
def pyStripChars (l : List Char) : List Char :=
  ((l.dropWhile isSpaceChar).reverse.dropWhile isSpaceChar).reverse

/-- ASCII `str.strip()` on `String`. -/
def pyStrip (s : String) : String := String.mk (pyStripChars s.data)

/-- The character class of `_TABLE_NOISE_RE` (`[\s|_\-+=]`). -/
def isNoiseChar (c : Char) : Bool :=
  isSpaceChar c || c = '|' || c = '_' || c = '-' || c = '+' || c = '='

/-- `str.splitlines` worker (`\n`, `\r\n` and `\r` separators). -/
def splitLinesGo : List Char → List Char → List (List Char)
  | cur, [] => [cur.reverse]
  | cur, '\r' :: '\n' :: rest =>
    cur.reverse :: (if rest.isEmpty then [] else splitLinesGo [] rest)
  | cur, '\n' :: rest =>
    cur.reverse :: (if rest.isEmpty then [] else splitLinesGo [] rest)
  | cur, '\r' :: rest =>
    cur.reverse :: (if rest.isEmpty then [] else splitLinesGo [] rest)
  | cur, c :: rest => splitLinesGo (c :: cur) rest

/-- `str.splitlines` (no trailing empty line for a final newline). -/
def splitLines (s : String) : List (List Char) :=
  if s = "" then [] else splitLinesGo [] s.data

/-- `GenericScraper._first_paragraph`: first stripped line that is
non-empty, not table noise, and longer than 10 characters. -/
def first_paragraph (text : Option String) : Option String :=
  match text with
  | none => none
  | some t =>
    if t = "" then none
    else
      (splitLines t).findSome? (fun line =>
        let stripped := pyStripChars line
        if !stripped.isEmpty && !stripped.all isNoiseChar && 10 < stripped.length then
          some (String.mk stripped)
        else none)

/-- Case-insensitive ASCII literal prefix test. -/
def ciPre : List Char → List Char → Bool
  | [], _ => true
  | _ :: _, [] => false
  | a :: xs, b :: ys => a.toLower = b.toLower && ciPre xs ys

/-- The characters before the first case-insensitive `</title>`. -/
def findTitleClose : List Char → Option (List Char)
  | [] => none
  | c :: cs =>
    if ciPre "</title>".data (c :: cs) then some []
    else (findTitleClose cs).map (fun l => c :: l)

/-- `re.search(r"<title[^>]*>(.*?)</title>", html, IGNORECASE | DOTALL)`:
group 1 of the leftmost match. -/
def titleSearch : List Char → Option (List Char)
  | [] => none
  | c :: cs =>
    if ciPre "<title".data (c :: cs) then
      let after := (c :: cs).drop 6
      let attrs := after.takeWhile (fun ch => ch ≠ '>')
      match after.drop attrs.length with
      | '>' :: body =>
        match findTitleClose body with
        | some inner => some inner
        | none => titleSearch cs
      | _ => titleSearch cs
    else titleSearch cs

/-- `GenericScraper._extract_html_title`. -/
def extract_html_title (html : String) : Option String :=
  match titleSearch html.data with
  | some inner =>
    let t := pyStrip (String.mk inner)
    if t = "" then none else some t
  | none => none

/-- `GenericScraper._build_items`: title, author and body text, each only
when truthy. -/
def generic_build_items (d : GenExtracted) (url : String) : List ScrapedItem :=
  (match d.title with
   | some v => if v ≠ "" then [⟨"content", "title", .pstr v, some url⟩] else []
   | none => []) ++
  (match d.author with
   | some v => if v ≠ "" then [⟨"content", "author", .pstr v, some url⟩] else []
   | none => []) ++
  (match d.text with
   | some v => if v ≠ "" then [⟨"content", "text", .pstr v, some url⟩] else []
   | none => [])

/-- `GenericScraper.scrape`: total — fetch or extraction failure yields a
Record with only the platform (bare domain) populated.  When trafilatura
finds no title the raw `<title>` tag is scanned; `bio` is the
description, else the first suitable body line. -/
def genericScrape (net : GenNet) (url : String) :
    ScrapedData (Option GenExtracted) :=
  let domain := extract_domain url
  match net.html with
  | none => { platform := domain, raw := none, source_url := url }
  | some html =>
    match net.extracted with
    | none => { platform := domain, raw := none, source_url := url }
    | some e0 =>
      let e :=
        if (e0.title.getD "") = "" then { e0 with title := extract_html_title html }
        else e0
      let bio := match e.description with
        | some d => if d ≠ "" then some d else first_paragraph e.text
        | none => first_paragraph e.text
      { platform := domain, bio := bio, items := generic_build_items e url,
        raw := some e, source_url := url }

/-! ## Router (`whoami/router.py`) and orchestrator (`whoami/cli.py`) -/

/-- A registered scraper as the router sees it: its match predicate and
its platform name. -/
structure RScraper where
  canHandle : String → Bool
  platform : String

/-- `LinkRouter`: the ordered registry. -/
structure LinkRouter where
  scrapers : List RScraper := []

/-- `LinkRouter.register`: append (registration order is priority). -/
def LinkRouter.register (r : LinkRouter) (s : RScraper) : LinkRouter :=
  { scrapers := r.scrapers ++ [s] }

/-- `LinkRouter.resolve`: the first registered scraper whose predicate
accepts the URL. -/
def LinkRouter.resolve (r : LinkRouter) (url : String) : Option RScraper :=
  r.scrapers.find? (fun s => s.canHandle url)

/-- `GenericScraper.can_handle`: accepts every URL. -/
def genericCanHandle : String → Bool := fun _ => true

/-- The catch-all scraper as a router entry. -/
def genericRScraper : RScraper := { canHandle := genericCanHandle, platform := "generic" }

/-- Outcome of awaiting one scrape task: the record, or the exception the
orchestrator's defensive handler catches. -/
def exceptToOption : Except ε α → Option α
  | .ok a => some a
  | .error _ => none

/-- The aggregation loop of `cli._run`: iterate the task outcomes in
completion order, append each successful Record, log and skip each
raised exception. -/
def runResults (completed : List (Except ε α)) : List α :=
  completed.filterMap exceptToOption

/-! ## Support lemmas and concrete instances -/

/-- An upstream oracle on which every GitLab request fails. -/
def glNetEmpty : GLNet :=
  { probe := fun _ _ => none, search := fun _ => none, topStarred := none,
    userProjects := fun _ _ => none }

theorem register_foldl (L : List RScraper) (r : LinkRouter) :
    (L.foldl LinkRouter.register r).scrapers = r.scrapers ++ L := by
  induction L generalizing r with
  | nil => simp
  | cons s L ih => simp [LinkRouter.register, ih]

theorem find?_append_of_none {p : RScraper → Bool} {l1 l2 : List RScraper}
    (h : ∀ b ∈ l1, p b = false) : (l1 ++ l2).find? p = l2.find? p := by
  induction l1 with
  | nil => rfl
  | cons b l ih =>
    have hb := h b (List.mem_cons_self b l)
    rw [List.cons_append, List.find?_cons_of_neg _ (by simp [hb])]
    exact ih (fun x hx => h x (List.mem_cons_of_mem b hx))

theorem length_filterMap_eq_countP {α β : Type} (f : α → Option β) (l : List α) :
    (l.filterMap f).length = l.countP (fun a => (f a).isSome) := by
  induction l with
  | nil => rfl
  | cons a l ih =>
    cases hfa : f a with
    | none => simp [List.filterMap_cons, hfa, List.countP_cons, ih]
    | some b => simp [List.filterMap_cons, hfa, List.countP_cons, ih]

/-! ## C6: router priority -/

/-- C6: with the catch-all registered last, `resolve` (built with
`register`) returns the earliest-registered adapter whose predicate
accepts the URL; when no specific adapter matches it returns the
catch-all; and it never returns `none`. -/
theorem router_first_match_and_catchall (specific : List RScraper) (url : String) :
    ((((specific ++ [genericRScraper]).foldl LinkRouter.register
        { scrapers := [] }).resolve url).isSome = true)
    ∧ (∀ l1 a l2, specific = l1 ++ a :: l2 → a.canHandle url = true →
        (∀ b ∈ l1, b.canHandle url = false) →
        ((specific ++ [genericRScraper]).foldl LinkRouter.register
          { scrapers := [] }).resolve url = some a)
    ∧ ((∀ s ∈ specific, s.canHandle url = false) →
        ((specific ++ [genericRScraper]).foldl LinkRouter.register
          { scrapers := [] }).resolve url = some genericRScraper) := by
  have hsc : (((specific ++ [genericRScraper]).foldl LinkRouter.register
      { scrapers := [] }).scrapers) = specific ++ [genericRScraper] := by
    rw [register_foldl]; rfl
  refine ⟨?_, ?_, ?_⟩
  · unfold LinkRouter.resolve
    rw [hsc]
    clear hsc
    induction specific with
    | nil => rfl
    | cons s l ih =>
      cases hs : s.canHandle url
      · rw [List.cons_append, List.find?_cons_of_neg _ (by simp [hs])]
        exact ih
      · rw [List.cons_append,
          @List.find?_cons_of_pos _ (fun s => s.canHandle url) s (l ++ [genericRScraper]) hs]
        rfl
  · intro l1 a l2 hspec ha hl1
    unfold LinkRouter.resolve
    rw [hsc, hspec]
    rw [List.append_assoc]
    rw [find?_append_of_none hl1]
    simp [List.find?, ha]
  · intro hnone
    unfold LinkRouter.resolve
    rw [hsc]
    rw [find?_append_of_none hnone]
    rfl

/-- A specific adapter matching exactly one URL. -/
def scraperA : RScraper :=
  { canHandle := fun u => u == "https://a.example/x", platform := "A" }

/-- A specific adapter matching every URL (to exercise the
registration-order tie-break against `scraperA`). -/
def scraperB : RScraper := { canHandle := fun _ => true, platform := "B" }

/-- Witness for C6: with `scraperA` registered before the all-matching
`scraperB`, the URL both accept resolves to `scraperA`; a URL neither
specific adapter accepts resolves to the catch-all. -/
theorem router_first_match_and_catchall_witness :
    (([scraperA] ++ [genericRScraper]).foldl LinkRouter.register
        { scrapers := [] }).resolve "https://other.example/" = some genericRScraper
    ∧ (([scraperA, scraperB] ++ [genericRScraper]).foldl LinkRouter.register
        { scrapers := [] }).resolve "https://a.example/x" = some scraperA := by
  constructor
  · exact (router_first_match_and_catchall [scraperA] "https://other.example/").2.2
      (by intro s hs; simp only [List.mem_singleton] at hs; subst hs; rfl)
  · exact (router_first_match_and_catchall [scraperA, scraperB] "https://a.example/x").2.1
      [] scraperA [scraperB] rfl rfl (by intro b hb; simp at hb)

/-! ## C2: batch result length -/

/-- C2 counterexample: a single-URL batch through the GitLab adapter on
`https://gitlab.com/` produces zero Records, not one — the raised
`ValueError` from `scrape` is logged and skipped by `_run`. -/
theorem run_batch_shorter_than_inputs :
    (runResults [gitlabScrape glNetEmpty "https://gitlab.com/" {}]).length = 0
    ∧ ["https://gitlab.com/"].length = 1 := ⟨rfl, rfl⟩

/-- C2 (corrected): the batch returns exactly one Record per scrape task
that completed without raising — in any completion order — rather than
one per input URL. -/
theorem run_length_eq_successful_fetches {R : Type}
    (outcomes completed : List (Except String R)) (h : completed.Perm outcomes) :
    (runResults completed).length
      = outcomes.countP (fun o => (exceptToOption o).isSome) := by
  unfold runResults
  rw [length_filterMap_eq_countP]
  exact h.countP_eq _

/-- Witness for C2: two tasks, one raising, completing in reversed
order: one Record comes back. -/
theorem run_length_eq_successful_fetches_witness :
    (runResults [Except.error "boom", Except.ok 7]).length
      = [Except.ok 7, Except.error "boom"].countP
          (fun o => (exceptToOption o).isSome) := by
  exact run_length_eq_successful_fetches _ _ (List.Perm.swap _ _ _)

/-! ## C1: behavior on URLs with no derivable identifier -/

/-- C1 counterexample: on a URL whose path has no username segment the
GitLab and Reddit adapters do NOT return a Record — `scrape` raises the
`ValueError` from `_extract_username` (here surfaced as `Except.error`),
falsifying the claim at `https://gitlab.com/` and
`https://www.reddit.com/r/python`. -/
theorem scrape_raises_on_usernameless_url :
    gitlabScrape glNetEmpty "https://gitlab.com/" {} =
      .error "Cannot extract GitLab username from URL: https://gitlab.com/"
    ∧ redditScrape {} "https://www.reddit.com/r/python" =
      .error "Cannot extract Reddit username from URL: https://www.reddit.com/r/python" :=
  ⟨rfl, rfl⟩

/-- C1 (corrected): unresolvable URLs are handled inconsistently —
Bilibili returns a Record carrying only an error note in its raw bag
(before any network interaction), while GitLab and Reddit propagate the
extraction `ValueError` out of `scrape`.  And even with a resolvable
URL, `scrape` is not raise-free: Bilibili awaits the session warm-up
request outside any `try`, so its network failure raises across the
adapter boundary; once the warm-up succeeds, every guarded upstream
failure still yields a Record, as it does for GitLab and Reddit
whenever their username extraction succeeds. -/
theorem scrape_unresolvable_url_behavior :
    (∀ (net : BiliNet) (url : String) (cfg : ScraperConfig) (t : Nat),
      extract_mid url = none →
      bilibiliScrape net url cfg t =
        .ok { platform := "Bilibili",
              raw := [("error", .err "Could not extract user mid from URL")],
              source_url := url })
    ∧ (∀ (net : BiliNet) (url : String) (cfg : ScraperConfig) (t : Nat)
        (mid e : String), extract_mid url = some mid →
        net.warmup = .error e →
        bilibiliScrape net url cfg t = .error e)
    ∧ (∀ (net : BiliNet) (url : String) (cfg : ScraperConfig) (t : Nat)
        (mid : String), extract_mid url = some mid →
        net.warmup = .ok () →
        (exceptToOption (bilibiliScrape net url cfg t)).isSome = true)
    ∧ (∀ (net : GLNet) (url : String) (cfg : ScraperConfig) (e : String),
        gitlab_extract_username url = .error e →
        gitlabScrape net url cfg = .error e)
    ∧ (∀ (net : RedditNet) (url : String) (e : String),
        reddit_extract_username url = .error e →
        redditScrape net url = .error e)
    ∧ (∀ (net : GLNet) (url : String) (cfg : ScraperConfig) (u : String),
        gitlab_extract_username url = .ok u →
        (exceptToOption (gitlabScrape net url cfg)).isSome = true)
    ∧ (∀ (net : RedditNet) (url : String) (u : String),
        reddit_extract_username url = .ok u →
        (exceptToOption (redditScrape net url)).isSome = true) := by
  refine ⟨?_, ?_, ?_, ?_, ?_, ?_, ?_⟩
  · intro net url cfg t h
    unfold bilibiliScrape
    rw [h]
  · intro net url cfg t mid e hmid hw
    unfold bilibiliScrape
    rw [hmid]
    simp only [hw]
  · intro net url cfg t mid hmid hw
    unfold bilibiliScrape
    rw [hmid]
    simp only [hw]
    rfl
  · intro net url cfg e h
    unfold gitlabScrape
    rw [h]
    rfl
  · intro net url e h
    unfold redditScrape
    rw [h]
    rfl
  · intro net url cfg u h
    unfold gitlabScrape
    rw [h]
    show (exceptToOption (Except.bind (Except.ok u) _)).isSome = true
    rw [Except.bind]
    cases hf : gitlab_fetch_user_id_and_data net u with
    | none => rfl
    | some pair =>
      cases pair with
      | mk uidOpt userData =>
        cases uidOpt with
        | none => rfl
        | some uid =>
          by_cases hz : uid = 0
          · simp only [if_pos hz]
            rfl
          · simp only [if_neg hz]
            rfl
  · intro net url u h
    unfold redditScrape
    rw [h]
    rfl

/-- Witness for C1: the corrected claim at concrete inputs — a video URL
for Bilibili (no `mid`), a space URL whose warm-up request fails (the
raise) and one whose warm-up succeeds (the no-raise), a bare host for
GitLab, a subreddit URL for Reddit, and two extractable URLs for the
no-raise direction. -/
theorem scrape_unresolvable_url_behavior_witness :
    bilibiliScrape {} "https://bilibili.com/video/BV1xx411c7mD" {} 0 =
      .ok { platform := "Bilibili",
            raw := [("error", .err "Could not extract user mid from URL")],
            source_url := "https://bilibili.com/video/BV1xx411c7mD" }
    ∧ bilibiliScrape { warmup := .error "httpx.ConnectError" }
        "https://space.bilibili.com/123" {} 0 = .error "httpx.ConnectError"
    ∧ (exceptToOption
        (bilibiliScrape {} "https://space.bilibili.com/123" {} 0)).isSome = true
    ∧ gitlabScrape glNetEmpty "gitlab.com" {} =
      .error "Cannot extract GitLab username from URL: gitlab.com"
    ∧ redditScrape {} "https://reddit.com/r/rust" =
      .error "Cannot extract Reddit username from URL: https://reddit.com/r/rust"
    ∧ (exceptToOption (gitlabScrape glNetEmpty "https://gitlab.com/alice" {})).isSome = true
    ∧ (exceptToOption (redditScrape {} "https://reddit.com/user/bob")).isSome = true :=
  ⟨scrape_unresolvable_url_behavior.1 _ _ _ _ rfl,
   scrape_unresolvable_url_behavior.2.1 _ _ _ _ "123" _ rfl rfl,
   scrape_unresolvable_url_behavior.2.2.1 _ _ _ _ "123" rfl rfl,
   scrape_unresolvable_url_behavior.2.2.2.1 _ _ _ _ rfl,
   scrape_unresolvable_url_behavior.2.2.2.2.1 _ _ _ rfl,
   scrape_unresolvable_url_behavior.2.2.2.2.2.1 _ _ _ "alice" rfl,
   scrape_unresolvable_url_behavior.2.2.2.2.2.2 _ _ "bob" rfl⟩

/-! ## C7: discovery-by-probing strategy order -/

theorem gitlab_strategy1_probe_only (net net' : GLNet) (username : String)
    (hp : net.probe = net'.probe) :
    gitlab_strategy1 net username = gitlab_strategy1 net' username := by
  unfold gitlab_strategy1
  rw [hp]

/-- C7: the GitLab discovery strategies short-circuit — a strategy-1 hit
makes the result the strategy-1 result and independent of the
search/top-starred oracles; when strategies 1 and 2 miss the result is
strategy 3's scan; and when discovery fails entirely `scrape` returns an
empty Record (platform set, no items) rather than raising. -/
theorem gitlab_strategy_order (net net' : GLNet) (username url : String)
    (cfg : ScraperConfig) :
    ((gitlab_strategy1 net username).isSome = true →
      gitlab_fetch_user_id_and_data net username = gitlab_strategy1 net username)
    ∧ (net.probe = net'.probe → (gitlab_strategy1 net username).isSome = true →
        gitlab_fetch_user_id_and_data net username
          = gitlab_fetch_user_id_and_data net' username)
    ∧ (gitlab_strategy1 net username = none → gitlab_strategy2 net username = none →
        gitlab_fetch_user_id_and_data net username = gitlab_strategy3 net username)
    ∧ (∀ u, gitlab_extract_username url = .ok u →
        gitlab_fetch_user_id_and_data net u = none →
        gitlabScrape net url cfg = .ok
          { platform := "GitLab", username := some u, raw := .empty,
            source_url := url }) := by
  refine ⟨?_, ?_, ?_, ?_⟩
  · intro h1
    unfold gitlab_fetch_user_id_and_data
    cases hs : gitlab_strategy1 net username with
    | none => rw [hs] at h1; exact absurd h1 (by simp)
    | some a => rfl
  · intro hp h1
    have hseq := gitlab_strategy1_probe_only net net' username hp
    unfold gitlab_fetch_user_id_and_data
    rw [← hseq]
    cases hs : gitlab_strategy1 net username with
    | none => rw [hs] at h1; exact absurd h1 (by simp)
    | some a => rfl
  · intro h1 h2
    unfold gitlab_fetch_user_id_and_data
    rw [h1, h2]
    rfl
  · intro u hext hf
    unfold gitlabScrape
    rw [hext]
    show Except.bind (Except.ok u) _ = _
    rw [Except.bind]
    rw [hf]
    rfl

/-- The user namespace of the concrete C7 witness (avatar URL carries
user id 42). -/
def glNsAlice : GLNamespace :=
  { kind := some "user", path := some "alice", name := some "Alice",
    web_url := some "https://gitlab.com/alice",
    avatar_url := some "https://gitlab.com/uploads/-/system/user/avatar/42/a.png" }

/-- A user-namespace project for the concrete C7 witness. -/
def glProjAlice : GLProject := { nspace := glNsAlice }

/-- A net on which probing `alice/alice` hits (strategy 1). -/
def glNetS1 : GLNet :=
  { probe := fun u n => if u = "alice" && n = "alice" then some glProjAlice else none,
    search := fun _ => none, topStarred := none, userProjects := fun _ _ => none }

/-- `glNetS1` with a different top-starred page (same probe oracle). -/
def glNetS1' : GLNet := { glNetS1 with topStarred := some [glProjAlice] }

/-- A net on which only the top-starred scan (strategy 3) can hit. -/
def glNetS3 : GLNet :=
  { probe := fun _ _ => none, search := fun _ => none,
    topStarred := some [glProjAlice], userProjects := fun _ _ => none }

/-- Witness for C7 at concrete nets: a strategy-1 hit determines the
result and ignores the top-starred page; with strategies 1 and 2 missing
the result is the strategy-3 scan; full failure yields the empty GitLab
Record. -/
theorem gitlab_strategy_order_witness :
    gitlab_fetch_user_id_and_data glNetS1 "alice" = gitlab_strategy1 glNetS1 "alice"
    ∧ gitlab_fetch_user_id_and_data glNetS1 "alice"
        = gitlab_fetch_user_id_and_data glNetS1' "alice"
    ∧ gitlab_fetch_user_id_and_data glNetS3 "alice" = gitlab_strategy3 glNetS3 "alice"
    ∧ gitlabScrape glNetEmpty "https://gitlab.com/bob" {} = .ok
        { platform := "GitLab", username := some "bob", raw := .empty,
          source_url := "https://gitlab.com/bob" } :=
  ⟨(gitlab_strategy_order glNetS1 glNetS1 "alice" "" {}).1 rfl,
   (gitlab_strategy_order glNetS1 glNetS1' "alice" "" {}).2.1 rfl rfl,
   (gitlab_strategy_order glNetS3 glNetS3 "alice" "" {}).2.2.1 rfl rfl,
   (gitlab_strategy_order glNetEmpty glNetEmpty "" "https://gitlab.com/bob" {}).2.2.2
     "bob" rfl rfl⟩

/-! ## Dict and sorting lemmas for the WBI claims -/

/-- Transform every value of an association list, keeping keys. -/
def mapValues (f : α → β) (l : List (String × α)) : List (String × β) :=
  l.map (fun kv => (kv.1, f kv.2))

theorem any_key_map_replace (l : List (String × α)) (k : String) (v : α) :
    (l.map (fun kv => if kv.1 = k then (k, v) else kv)).any (fun kv => kv.1 = k)
      = l.any (fun kv => kv.1 = k) := by
  induction l with
  | nil => rfl
  | cons kv l ih =>
    by_cases h : kv.1 = k
    · simp [h]
    · simp [h, ih]

theorem map_replace_eq_self (l : List (String × α)) (k : String) (v : α)
    (h : l.any (fun kv => kv.1 = k) = false) :
    l.map (fun kv => if kv.1 = k then (k, v) else kv) = l := by
  induction l with
  | nil => rfl
  | cons kv l ih =>
    simp only [List.any_cons, Bool.or_eq_false_iff] at h
    have hne : ¬ kv.1 = k := by simpa using h.1
    simp [hne, ih h.2]

theorem dictSet_dictSet (l : List (String × α)) (k : String) (v w : α) :
    dictSet (dictSet l k v) k w = dictSet l k w := by
  by_cases h : l.any (fun kv => kv.1 = k) = true
  · unfold dictSet
    rw [if_pos h]
    rw [if_pos ((any_key_map_replace l k v).trans h)]
    rw [if_pos h]
    rw [List.map_map]
    congr 1
    funext kv
    by_cases hk : kv.1 = k <;> simp [hk]
  · have h' : l.any (fun kv => kv.1 = k) = false := by
      cases hx : l.any (fun kv => kv.1 = k)
      · rfl
      · exact absurd hx h
    unfold dictSet
    rw [if_neg h, if_neg h]
    have hany : (l ++ [(k, v)]).any (fun kv => kv.1 = k) = true := by
      simp [List.any_append]
    rw [if_pos hany, List.map_append, map_replace_eq_self l k w h']
    simp

theorem keys_map_replace (l : List (String × α)) (k : String) (v : α) :
    (l.map (fun kv => if kv.1 = k then (k, v) else kv)).map Prod.fst
      = l.map Prod.fst := by
  induction l with
  | nil => rfl
  | cons kv l ih =>
    by_cases h : kv.1 = k
    · simp [h, ih]
    · simp [h, ih]

theorem mem_keys_dictSet (l : List (String × α)) (k k' : String) (v : α) :
    k' ∈ (dictSet l k v).map Prod.fst ↔ k' ∈ l.map Prod.fst ∨ k' = k := by
  by_cases h : l.any (fun kv => kv.1 = k) = true
  · unfold dictSet
    rw [if_pos h, keys_map_replace]
    constructor
    · exact Or.inl
    · intro hc
      cases hc with
      | inl hm => exact hm
      | inr he =>
        subst he
        rcases List.any_eq_true.mp h with ⟨kv, hmem, hk⟩
        simp only [decide_eq_true_eq] at hk
        exact hk ▸ List.mem_map_of_mem Prod.fst hmem
  · unfold dictSet
    rw [if_neg h, List.map_append]
    simp [List.mem_append]

theorem mem_dictSet_self (l : List (String × α)) (k : String) (v : α) :
    (k, v) ∈ dictSet l k v := by
  by_cases h : l.any (fun kv => kv.1 = k) = true
  · unfold dictSet
    rw [if_pos h]
    rcases List.any_eq_true.mp h with ⟨kv, hmem, hk⟩
    simp only [decide_eq_true_eq] at hk
    have := List.mem_map_of_mem (fun kv => if kv.1 = k then (k, v) else kv) hmem
    simp only [if_pos hk] at this
    exact this
  · unfold dictSet
    rw [if_neg h]
    simp

theorem mem_dictSet_of_ne (l : List (String × α)) (k : String) (v : α)
    (x : String × α) (hx : x ∈ l) (hne : x.1 ≠ k) : x ∈ dictSet l k v := by
  by_cases h : l.any (fun kv => kv.1 = k) = true
  · unfold dictSet
    rw [if_pos h]
    have := List.mem_map_of_mem (fun kv => if kv.1 = k then (k, v) else kv) hx
    simp only [if_neg hne] at this
    exact this
  · unfold dictSet
    rw [if_neg h]
    exact List.mem_append_left _ hx

theorem insertSorted_perm (x : String × α) (l : List (String × α)) :
    (insertSorted x l).Perm (x :: l) := by
  induction l with
  | nil => exact List.Perm.refl _
  | cons y ys ih =>
    unfold insertSorted
    by_cases h : strLt x.1 y.1 = true
    · rw [if_pos h]
    · rw [if_neg h]
      exact (ih.cons y).trans (List.Perm.swap x y ys)

theorem sortByKey_perm (l : List (String × α)) : (sortByKey l).Perm l := by
  induction l with
  | nil => exact List.Perm.refl _
  | cons x xs ih =>
    unfold sortByKey
    rw [List.foldr_cons]
    exact (insertSorted_perm x _).trans (ih.cons x)

theorem keys_mapValues (f : α → β) (l : List (String × α)) :
    (mapValues f l).map Prod.fst = l.map Prod.fst := by
  unfold mapValues
  rw [List.map_map]
  rfl

theorem any_key_mapValues (f : α → β) (l : List (String × α)) (k : String) :
    (mapValues f l).any (fun kv => kv.1 = k) = l.any (fun kv => kv.1 = k) := by
  induction l with
  | nil => rfl
  | cons kv l ih =>
    unfold mapValues at ih ⊢
    simp only [List.map_cons, List.any_cons]
    rw [ih]

theorem dictSet_mapValues (f : α → β) (l : List (String × α)) (k : String) (v : α) :
    dictSet (mapValues f l) k (f v) = mapValues f (dictSet l k v) := by
  by_cases h : l.any (fun kv => kv.1 = k) = true
  · unfold dictSet
    rw [if_pos ((any_key_mapValues f l k).trans h), if_pos h]
    unfold mapValues
    rw [List.map_map, List.map_map]
    congr 1
    funext kv
    by_cases hk : kv.1 = k <;> simp [hk]
  · have h' : (mapValues f l).any (fun kv => kv.1 = k) = true → False := by
      rw [any_key_mapValues]
      intro hc
      exact absurd hc h
    unfold dictSet
    rw [if_neg h', if_neg h]
    unfold mapValues
    simp

theorem insertSorted_mapValues (f : α → β) (x : String × α) (l : List (String × α)) :
    insertSorted (x.1, f x.2) (mapValues f l) = mapValues f (insertSorted x l) := by
  induction l with
  | nil => rfl
  | cons y ys ih =>
    by_cases h : strLt x.1 y.1 = true
    · simp [insertSorted, mapValues, h]
    · simp only [mapValues, List.map_cons, insertSorted, if_neg h]
      exact congrArg (fun t => (y.1, f y.2) :: t) (by simpa [mapValues] using ih)

theorem sortByKey_mapValues (f : α → β) (l : List (String × α)) :
    sortByKey (mapValues f l) = mapValues f (sortByKey l) := by
  induction l with
  | nil => rfl
  | cons x xs ih =>
    simp only [sortByKey, mapValues, List.map_cons, List.foldr_cons]
    have h1 := insertSorted_mapValues f x (xs.foldr insertSorted [])
    simp only [sortByKey, mapValues] at ih h1
    rw [← h1, ih]

/-! ## C10, C4, C5: the WBI signing function -/

theorem sign_wbi_eq_canon (p : List (String × PyObj)) (ik sk : String) (t : Nat) :
    sign_wbi p ik sk t =
      dictSet
        (mapValues (fun v => stripBad (pyStr v)) (sortByKey (dictSet p "wts" (.pint t))))
        "w_rid"
        (md5Hex (urlencode
          (mapValues (fun v => stripBad (pyStr v)) (sortByKey (dictSet p "wts" (.pint t))))
            ++ getMixinKey (ik ++ sk))) := rfl

theorem sign_wbi_strip_blind (p1 p2 : List (String × PyObj)) (ik sk : String) (t : Nat)
    (h : mapValues (fun v => stripBad (pyStr v)) p1
      = mapValues (fun v => stripBad (pyStr v)) p2) :
    sign_wbi p1 ik sk t = sign_wbi p2 ik sk t := by
  rw [sign_wbi_eq_canon, sign_wbi_eq_canon]
  have hp3 : mapValues (fun v => stripBad (pyStr v)) (sortByKey (dictSet p1 "wts" (.pint t)))
      = mapValues (fun v => stripBad (pyStr v)) (sortByKey (dictSet p2 "wts" (.pint t))) := by
    rw [← sortByKey_mapValues, ← sortByKey_mapValues,
      ← dictSet_mapValues, ← dictSet_mapValues, h]
  rw [hp3]

/-- C10 (confirmed): `_sign_wbi` overwrites any caller-supplied `wts`
with the clock value, the returned dict's key set is the input's united
with `wts` and `w_rid`, the returned `wts` entry holds the (stripped,
stringified) timestamp, and the caller's dict after the call has gained
exactly the overwritten `wts` entry — in particular no `w_rid`. -/
theorem sign_wbi_frame (p : List (String × PyObj)) (ik sk : String) (t : Nat) (v : PyObj) :
    (∀ k', k' ∈ (sign_wbi p ik sk t).map Prod.fst ↔
        (k' ∈ p.map Prod.fst ∨ k' = "wts" ∨ k' = "w_rid"))
    ∧ sign_wbi (dictSet p "wts" v) ik sk t = sign_wbi p ik sk t
    ∧ ("wts", stripBad (pyStr (.pint t))) ∈ sign_wbi p ik sk t
    ∧ sign_wbi_paramsAfter p t = dictSet p "wts" (.pint t)
    ∧ (("w_rid" ∈ p.map Prod.fst → False) →
        ("w_rid" ∈ (sign_wbi_paramsAfter p t).map Prod.fst → False)) := by
  refine ⟨?_, ?_, ?_, rfl, ?_⟩
  · intro k'
    rw [sign_wbi_eq_canon]
    rw [mem_keys_dictSet]
    rw [keys_mapValues]
    have hperm := (sortByKey_perm (dictSet p "wts" (PyObj.pint t))).map Prod.fst
    rw [hperm.mem_iff]
    rw [mem_keys_dictSet]
    rw [or_assoc]
  · rw [sign_wbi_eq_canon, sign_wbi_eq_canon, dictSet_dictSet]
  · rw [sign_wbi_eq_canon]
    have m1 : ("wts", PyObj.pint t) ∈ dictSet p "wts" (PyObj.pint t) :=
      mem_dictSet_self p "wts" _
    have m2 : ("wts", PyObj.pint t) ∈ sortByKey (dictSet p "wts" (PyObj.pint t)) :=
      ((sortByKey_perm _).mem_iff).mpr m1
    have m3 : ("wts", stripBad (pyStr (PyObj.pint t)))
        ∈ mapValues (fun v => stripBad (pyStr v)) (sortByKey (dictSet p "wts" (PyObj.pint t))) :=
      List.mem_map_of_mem (fun kv => (kv.1, stripBad (pyStr kv.2))) m2
    exact mem_dictSet_of_ne _ "w_rid" _ _ m3 (by intro hc; simp at hc)
  · intro hp hmem
    rcases (mem_keys_dictSet p "wts" "w_rid" (PyObj.pint t)).mp hmem with hl | hr
    · exact hp hl
    · exact absurd hr (by decide)

/-- Witness for C10 at a concrete parameter map: a stale `wts` is
ignored, the signed dict contains the fresh `wts`, and the caller's dict
gains `wts` but not `w_rid`. -/
theorem sign_wbi_frame_witness :
    sign_wbi (dictSet [("mid", PyObj.pstr "123")] "wts" (PyObj.pint 1)) "ik" "sk" 5
      = sign_wbi [("mid", PyObj.pstr "123")] "ik" "sk" 5
    ∧ ("wts", stripBad (pyStr (PyObj.pint 5)))
        ∈ sign_wbi [("mid", PyObj.pstr "123")] "ik" "sk" 5
    ∧ ("w_rid" ∈ (sign_wbi_paramsAfter [("mid", PyObj.pstr "123")] 5).map Prod.fst
        → False) :=
  ⟨(sign_wbi_frame [("mid", PyObj.pstr "123")] "ik" "sk" 5 (PyObj.pint 1)).2.1,
   (sign_wbi_frame [("mid", PyObj.pstr "123")] "ik" "sk" 5 (PyObj.pint 1)).2.2.1,
   (sign_wbi_frame [("mid", PyObj.pstr "123")] "ik" "sk" 5 (PyObj.pint 1)).2.2.2.2
     (by decide)⟩

/-- A realistic 32-character WBI img key for concrete signing inputs. -/
def wbiImgKey : String := "7cd084941338484aae1ad9425b84077c"

/-- A realistic 32-character WBI sub key for concrete signing inputs. -/
def wbiSubKey : String := "4932caff0ff746eab6f01bf08b70ac45"

/-- C4 counterexample: two parameter maps that differ in the value of
`a` (`x!` versus `x`) produce identical signatures, because the signing
function strips `!'()*` from every value before encoding — changing a
parameter value does not always change the signature. -/
theorem sign_wbi_value_collision :
    sign_wbi [("a", PyObj.pstr "x!")] wbiImgKey wbiSubKey 5
      = sign_wbi [("a", PyObj.pstr "x")] wbiImgKey wbiSubKey 5
    ∧ List.lookup "a" [("a", PyObj.pstr "x!")] ≠ List.lookup "a" [("a", PyObj.pstr "x")] := by
  constructor
  · exact sign_wbi_strip_blind _ _ _ _ _ (by decide)
  · intro h
    have h1 : List.lookup "a" [("a", PyObj.pstr "x!")] = some (PyObj.pstr "x!") := rfl
    have h2 : List.lookup "a" [("a", PyObj.pstr "x")] = some (PyObj.pstr "x") := rfl
    rw [h1, h2] at h
    injection h with hv
    injection hv with hs
    exact absurd hs (by decide)

/-- C4 (corrected): with a fixed key pair and timestamp the signature is
a deterministic function of its inputs, and it is blind to value changes
that survive only in the stripped characters `!'()*` — two maps whose
stringified-and-stripped values agree sign identically (so only value
changes that alter the stripped encoding can change the signature). -/
theorem sign_wbi_deterministic_strip_blind :
    (∀ (p p' : List (String × PyObj)) (ik ik' sk sk' : String) (t t' : Nat),
      p = p' → ik = ik' → sk = sk' → t = t' →
      sign_wbi p ik sk t = sign_wbi p' ik' sk' t')
    ∧ (∀ (p1 p2 : List (String × PyObj)) (ik sk : String) (t : Nat),
        mapValues (fun v => stripBad (pyStr v)) p1
          = mapValues (fun v => stripBad (pyStr v)) p2 →
        sign_wbi p1 ik sk t = sign_wbi p2 ik sk t) := by
  constructor
  · intro p p' ik ik' sk sk' t t' hp hik hsk ht
    rw [hp, hik, hsk, ht]
  · exact sign_wbi_strip_blind

/-- Witness for C4 at concrete inputs: determinism at equal arguments,
and strip-blindness between `x(` and `x`. -/
theorem sign_wbi_deterministic_strip_blind_witness :
    sign_wbi [("b", PyObj.pint 7)] wbiImgKey wbiSubKey 9
      = sign_wbi [("b", PyObj.pint 7)] wbiImgKey wbiSubKey 9
    ∧ sign_wbi [("b", PyObj.pstr "x(")] wbiImgKey wbiSubKey 9
      = sign_wbi [("b", PyObj.pstr "x")] wbiImgKey wbiSubKey 9 :=
  ⟨sign_wbi_deterministic_strip_blind.1 _ _ _ _ _ _ _ _ rfl rfl rfl rfl,
   sign_wbi_deterministic_strip_blind.2 _ _ _ _ _ (by decide)⟩

/-- The WBI signing step exactly as the specification words it: permute
the concatenated keys through the fixed 64-entry table and truncate to
32 characters for the mixin key, add the timestamp parameter `wts`,
lexically sort the parameters by key, strip the disallowed characters
`!'()*` from every value, URL-encode the sorted set, and take the MD5
hex digest of the encoded query concatenated with the mixin key as the
`w_rid` signature parameter. -/
def sign_wbi_asSpecified (params : List (String × PyObj)) (img_key sub_key : String)
    (t : Nat) : List (String × String) :=
  let mixin_key := String.mk ((mixinKeyEncTab.take 32).map
    (fun i => (img_key ++ sub_key).data.getD i ' '))
  let sorted := sortByKey (dictSet params "wts" (.pint t))
  let stripped := sorted.map (fun kv => (kv.1, stripBad (pyStr kv.2)))
  let encoded := String.intercalate "&"
    (stripped.map (fun kv => quotePlus kv.1 ++ "=" ++ quotePlus kv.2))
  dictSet stripped "w_rid" (md5Hex (encoded ++ mixin_key))

/-- C5 (confirmed): the implementation's signing function agrees with
the specification's description of it on every parameter map, key pair
and timestamp. -/
theorem sign_wbi_meets_spec (p : List (String × PyObj)) (ik sk : String) (t : Nat) :
    sign_wbi p ik sk t = sign_wbi_asSpecified p ik sk t := by
  unfold sign_wbi sign_wbi_asSpecified urlencode getMixinKey
  rw [List.map_take]

/-! ## C8: Fact field non-emptiness -/

/-- A video entry with no `title` key, as the search API may return. -/
def biliVideoEntryNoTitle : BiliVideo := { bvid := some "BV1xx411c7mD", play := some 3 }

/-- A video search response containing only `biliVideoEntryNoTitle`. -/
def biliVideoRespNoTitle : BiliVideoResp :=
  { data := { list := { vlist := [biliVideoEntryNoTitle] } } }

/-- C8 counterexample: `_parse_videos` builds a Fact whose `key` is the
empty string when the upstream video entry lacks a title, falsifying the
claim that every constructed Fact has a non-empty key. -/
theorem parse_videos_empty_key :
    (bilibili_parse_videos biliVideoRespNoTitle 50).map (fun i => i.key) = [""]
    ∧ (bilibili_parse_videos biliVideoRespNoTitle 50).map (fun i => i.category)
      = ["video"] := ⟨rfl, rfl⟩

theorem pyTake_ne_empty (n : Nat) (hn : n ≠ 0) (s : String) (hs : s ≠ "") :
    pyTake n s ≠ "" := by
  cases s with
  | mk data =>
    cases data with
    | nil => exact absurd rfl hs
    | cons c cs =>
      cases n with
      | zero => exact absurd rfl hn
      | succ m =>
        intro hc
        have hd := congrArg String.data hc
        simp [pyTake] at hd

/-- Category and key of a Fact literal are non-empty when the supplied
strings are. -/
theorem mkItem_nonempty {c k : String} (v : PyObj) (u : Option String)
    (hc : c ≠ "") (hk : k ≠ "") :
    (({ category := c, key := k, value := v, url := u } : ScrapedItem).category ≠ "")
    ∧ (({ category := c, key := k, value := v, url := u } : ScrapedItem).key ≠ "") :=
  ⟨hc, hk⟩

theorem append_ne_empty_left (a b : String) (ha : a ≠ "") : (a ++ b) ≠ "" := by
  cases a with
  | mk da =>
    cases da with
    | nil => exact absurd rfl ha
    | cons c cs =>
      intro hc
      have := congrArg String.data hc
      rw [String.data_append] at this
      simp at this

theorem redditFieldItem_shape (k : String) (v : Option PyObj) (u : Option String)
    (i : ScrapedItem) (h : i ∈ redditFieldItem k v u) :
    i.category = "profile" ∧ i.key = k := by
  unfold redditFieldItem at h
  split at h
  · simp at h
  · simp at h
  · split at h
    · simp at h
    · simp at h
      subst h
      exact ⟨rfl, rfl⟩
  · simp at h
    subst h
    exact ⟨rfl, rfl⟩

/-- C8 (corrected): every Fact built by the modelled item builders has a
non-empty `category`; every such Fact also has a non-empty `key` except
where the key is copied verbatim from upstream text — Bilibili video
titles and GitLab project names — which is non-empty whenever the
upstream fields are. -/
theorem scraped_item_nonempty_fields :
    (∀ (resp : BiliVideoResp) (m : Nat) (i : ScrapedItem),
        i ∈ bilibili_parse_videos resp m → i.category ≠ "")
    ∧ (∀ (resp : BiliVideoResp) (m : Nat),
        (∀ v ∈ resp.data.list.vlist, v.title.getD "" ≠ "") →
        ∀ i ∈ bilibili_parse_videos resp m, i.key ≠ "")
    ∧ (∀ (resp : BiliCardResp) (i : ScrapedItem),
        i ∈ (bilibili_parse_card resp).2.2.1 → i.category ≠ "" ∧ i.key ≠ "")
    ∧ (∀ (ns : GLNamespace) (i : ScrapedItem),
        i ∈ gitlab_build_profile_items ns → i.category ≠ "" ∧ i.key ≠ "")
    ∧ (∀ (ps : List GLProject) (i : ScrapedItem),
        i ∈ gitlab_build_project_items ps → i.category ≠ "")
    ∧ (∀ (ps : List GLProject),
        (∀ pr ∈ ps, pr.name.getD "unknown" ≠ "") →
        ∀ i ∈ gitlab_build_project_items ps, i.key ≠ "")
    ∧ (∀ (a : RedditAbout) (i : ScrapedItem),
        i ∈ reddit_build_profile_items a → i.category ≠ "" ∧ i.key ≠ "")
    ∧ (∀ (l : RedditListing) (i : ScrapedItem),
        i ∈ reddit_build_post_items l → i.category ≠ "" ∧ i.key ≠ "")
    ∧ (∀ (l : RedditListing) (i : ScrapedItem),
        i ∈ reddit_build_comment_items l → i.category ≠ "" ∧ i.key ≠ "")
    ∧ (∀ (d : GenExtracted) (u : String) (i : ScrapedItem),
        i ∈ generic_build_items d u → i.category ≠ "" ∧ i.key ≠ "") := by
  refine ⟨?_, ?_, ?_, ?_, ?_, ?_, ?_, ?_, ?_, ?_⟩
  · intro resp m i h
    unfold bilibili_parse_videos at h
    rcases List.mem_map.mp h with ⟨v, _, hv⟩
    subst hv
    simp
  · intro resp m hall i h
    unfold bilibili_parse_videos at h
    rcases List.mem_map.mp h with ⟨v, hvmem, hv⟩
    subst hv
    exact hall v (List.mem_of_mem_take hvmem)
  · intro resp i h
    unfold bilibili_parse_card at h
    simp only [List.mem_append] at h
    rcases h with ((((h | h) | h) | h) | h) <;>
      (repeat' split at h) <;> simp at h <;>
      (subst h; exact mkItem_nonempty _ _ (by decide) (by decide))
  · intro ns i h
    unfold gitlab_build_profile_items at h
    simp only [List.mem_append] at h
    rcases h with h | h <;>
      (repeat' split at h) <;> simp at h <;>
      (subst h; exact mkItem_nonempty _ _ (by decide) (by decide))
  · intro ps i h
    unfold gitlab_build_project_items at h
    rcases List.mem_map.mp h with ⟨pr, _, hp⟩
    subst hp
    simp
  · intro ps hall i h
    unfold gitlab_build_project_items at h
    rcases List.mem_map.mp h with ⟨pr, hpmem, hp⟩
    subst hp
    exact hall pr hpmem
  · intro a i h
    unfold reddit_build_profile_items at h
    simp only [List.mem_append] at h
    rcases h with ((((h | h) | h) | h) | h)
    · repeat' split at h
      all_goals simp at h
      all_goals (subst h; exact mkItem_nonempty _ _ (by decide) (by decide))
    all_goals {
      have := redditFieldItem_shape _ _ _ _ h
      refine ⟨?_, ?_⟩
      · rw [this.1]; decide
      · rw [this.2]; decide }
  · intro l i h
    unfold reddit_build_post_items at h
    rcases List.mem_flatMap.mp h with ⟨child, _, hi⟩
    by_cases hcond : child.title.getD "" = ""
    · simp [hcond] at hi
    · simp only [ne_eq, if_neg (fun hc => hcond (by simpa using hc))] at hi
      simp at hi
      rcases hi with ⟨-, hi⟩
      subst hi
      exact mkItem_nonempty _ _ (by decide) (pyTake_ne_empty 100 (by decide) _ hcond)
  · intro l i h
    unfold reddit_build_comment_items at h
    rcases List.mem_map.mp h with ⟨kv, _, hk⟩
    subst hk
    exact mkItem_nonempty _ _ (by decide)
      (append_ne_empty_left "comments_in_" kv.1 (by decide))
  · intro d u i h
    unfold generic_build_items at h
    simp only [List.mem_append] at h
    rcases h with (h | h) | h <;>
      (repeat' split at h) <;> simp at h <;>
      (subst h; exact mkItem_nonempty _ _ (by decide) (by decide))

/-- A titled video entry for the C8 witness. -/
def biliVideoEntryTitled : BiliVideo :=
  { title := some "My video", bvid := some "BV1", play := some 1 }

/-- A video search response containing only `biliVideoEntryTitled`. -/
def biliVideoRespTitled : BiliVideoResp :=
  { data := { list := { vlist := [biliVideoEntryTitled] } } }

/-- The Fact `_parse_videos` builds from `biliVideoEntryTitled`. -/
def biliItemTitled : ScrapedItem :=
  { category := "video", key := "My video",
    value := .pdict [("views", .pint 1), ("bvid", .pstr "BV1")],
    url := some "https://www.bilibili.com/video/BV1" }

/-- A named project for the C8 witness. -/
def glProjNamed : GLProject := { name := some "tool" }

/-- The Fact `_build_project_items` builds from `glProjNamed`. -/
def glItemNamed : ScrapedItem :=
  { category := "project", key := "tool",
    value := .pdict [("description", .pnone), ("language", .pnone),
      ("stars", .pint 0), ("forks", .pint 0)],
    url := none }

/-- Witness for C8: the amended invariant at concrete titled/named
upstream entries. -/
theorem scraped_item_nonempty_fields_witness :
    biliItemTitled.category ≠ "" ∧ biliItemTitled.key ≠ "" ∧ glItemNamed.key ≠ "" :=
  ⟨scraped_item_nonempty_fields.1 biliVideoRespTitled 50 biliItemTitled
      (show biliItemTitled ∈ [biliItemTitled] from List.mem_cons_self _ _),
   scraped_item_nonempty_fields.2.1 biliVideoRespTitled 50 (by decide) biliItemTitled
      (show biliItemTitled ∈ [biliItemTitled] from List.mem_cons_self _ _),
   scraped_item_nonempty_fields.2.2.2.2.2.1 [glProjNamed] (by decide) glItemNamed
      (show glItemNamed ∈ [glItemNamed] from List.mem_cons_self _ _)⟩

/-! ## C3: the PII redaction filter is never applied -/

/-- An extraction result whose description carries an e-mail address. -/
def genExtractedLeak : GenExtracted :=
  { title := some "About Me", description := some "reach me at jane.doe@example.com" }

/-- The catch-all oracle returning `genExtractedLeak`. -/
def genNetLeak : GenNet :=
  { html := some "<html><title>About Me</title></html>", extracted := some genExtractedLeak }

/-- C3 (code bug): the Record built by the catch-all scraper reaches the
orchestrator's result list verbatim, its bio still contains the e-mail
address, and `strip_sensitive` — which no code path ever calls — would
have redacted it: the scraped text does not equal the redaction filter
applied to it. -/
theorem privacy_filter_not_applied :
    runResults [(Except.ok (genericScrape genNetLeak "https://example.com/some-article")
        : Except String (ScrapedData (Option GenExtracted)))]
      = [genericScrape genNetLeak "https://example.com/some-article"]
    ∧ (genericScrape genNetLeak "https://example.com/some-article").bio
      = some "reach me at jane.doe@example.com"
    ∧ strip_sensitive "reach me at jane.doe@example.com"
      ≠ "reach me at jane.doe@example.com"
    ∧ strip_sensitive "reach me at jane.doe@example.com" = "reach me at [REDACTED]" := by
  refine ⟨rfl, rfl, by decide, by decide⟩

/-! ## C9 development: idempotence of the redaction filter

The proof shows that the output of each `re.sub` pass contains no match
of its own pattern (`scan_noMatch…`), that the later passes cannot
create a match of an earlier pattern (`scan_preserve…`), and that a pass
over match-free text is the identity.  `Scan` is a relational
presentation of the `subFuel` recursion that the inductions work over. -/

/-- The characters of the replacement text. -/
def replChars : List Char := "[REDACTED]".data

/-- The character preceding position `i` (`prev` at position 0). -/
def ctxAt (prev : Option Char) (cs : List Char) : Nat → Option Char
  | 0 => prev
  | i + 1 => cs.get? i

/-- `cs`, in left context `prev`, contains no match of `m` at any
position. -/
def NoMatch (m : Option Char → List Char → Option Nat) (prev : Option Char)
    (cs : List Char) : Prop :=
  ∀ i, m (ctxAt prev cs i) (cs.drop i) = none

/-- One `re.sub` pass as a relation: the scan keeps characters at failed
positions and splices the replacement over matches, resuming after the
consumed text with the last consumed character as context. -/
inductive Scan (m : Option Char → List Char → Option Nat) :
    Option Char → List Char → List Char → Prop
  | done (prev : Option Char) : Scan m prev [] []
  | keep (prev : Option Char) (c : Char) (cs out : List Char) :
      m prev (c :: cs) = none → Scan m (some c) cs out →
      Scan m prev (c :: cs) (c :: out)
  | repl (prev : Option Char) (cs out : List Char) (n : Nat) :
      m prev cs = some n → 1 ≤ n → n ≤ cs.length →
      Scan m ((cs.take n).getLast?) (cs.drop n) out →
      Scan m prev cs (replChars ++ out)

theorem subFuel_cons_eq (m : Option Char → List Char → Option Nat)
    (R : List Char) (fuel : Nat) (prev : Option Char) (c : Char) (cs : List Char) :
    subFuel m R (fuel + 1) prev (c :: cs)
      = match m prev (c :: cs) with
        | some (n + 1) => R ++ subFuel m R fuel (((c :: cs).take (n + 1)).getLast?)
            ((c :: cs).drop (n + 1))
        | some 0 => c :: subFuel m R fuel (some c) cs
        | none => c :: subFuel m R fuel (some c) cs := rfl

theorem subFuel_scan (m : Option Char → List Char → Option Nat)
    (hpos : ∀ p cs n, m p cs = some n → 1 ≤ n ∧ n ≤ cs.length) :
    ∀ (fuel : Nat) (prev : Option Char) (cs : List Char), cs.length ≤ fuel →
      Scan m prev cs (subFuel m replChars fuel prev cs) := by
  intro fuel
  induction fuel with
  | zero =>
    intro prev cs hle
    have : cs = [] := List.eq_nil_of_length_eq_zero (Nat.le_zero.mp hle)
    subst this
    exact Scan.done prev
  | succ fuel ih =>
    intro prev cs hle
    cases cs with
    | nil => exact Scan.done prev
    | cons c cs' =>
      cases hm : m prev (c :: cs') with
      | none =>
        rw [subFuel_cons_eq, hm]
        exact Scan.keep prev c cs' _ hm
          (ih (some c) cs' (by simpa using Nat.le_of_succ_le_succ hle))
      | some n =>
        cases n with
        | zero => exact absurd (hpos _ _ _ hm).1 (by simp)
        | succ k =>
          rw [subFuel_cons_eq, hm]
          refine Scan.repl prev (c :: cs') _ (k + 1) hm (by simp) (hpos _ _ _ hm).2
            (ih _ _ ?_)
          have hlen : (c :: cs').length ≤ fuel + 1 := hle
          have := List.length_drop (k + 1) (c :: cs')
          omega

theorem ctxAt_cons (p : Option Char) (c : Char) (cs : List Char) (i : Nat) :
    ctxAt (some c) cs i = ctxAt p (c :: cs) (i + 1) := by
  cases i with
  | zero => rfl
  | succ j => rfl

theorem noMatch_of_cons {m : Option Char → List Char → Option Nat}
    {p : Option Char} {c : Char} {cs : List Char}
    (h : NoMatch m p (c :: cs)) : NoMatch m (some c) cs := by
  intro i
  have := h (i + 1)
  rwa [← ctxAt_cons p c cs i] at this

theorem noMatch_cons {m : Option Char → List Char → Option Nat}
    {p : Option Char} {c : Char} {cs : List Char}
    (h0 : m p (c :: cs) = none) (h : NoMatch m (some c) cs) :
    NoMatch m p (c :: cs) := by
  intro i
  cases i with
  | zero => exact h0
  | succ j =>
    rw [← ctxAt_cons p c cs j]
    exact h j

theorem ctxAt_add (p : Option Char) (cs : List Char) (d i : Nat) :
    ctxAt (ctxAt p cs d) (cs.drop d) i = ctxAt p cs (d + i) := by
  cases i with
  | zero => rfl
  | succ j =>
    show (cs.drop d).get? j = cs.get? (d + j)
    exact List.get?_drop cs d j

theorem noMatch_drop {m : Option Char → List Char → Option Nat}
    {p : Option Char} {cs : List Char} (h : NoMatch m p cs) (d : Nat) :
    NoMatch m (ctxAt p cs d) (cs.drop d) := by
  intro i
  rw [ctxAt_add]
  have hd : (cs.drop d).drop i = cs.drop (d + i) := by
    rw [List.drop_drop]
  rw [hd]
  exact h (d + i)

theorem subFuel_eq_of_noMatch (m : Option Char → List Char → Option Nat)
    (R : List Char) :
    ∀ (fuel : Nat) (prev : Option Char) (cs : List Char), NoMatch m prev cs →
      subFuel m R fuel prev cs = cs := by
  intro fuel
  induction fuel with
  | zero => intro prev cs _; rfl
  | succ fuel ih =>
    intro prev cs h
    cases cs with
    | nil => rfl
    | cons c cs' =>
      have h0 : m prev (c :: cs') = none := h 0
      rw [subFuel_cons_eq, h0, ih (some c) cs' (noMatch_of_cons h)]

theorem getLast?_take_succ (l : List Char) (j : Nat) (hj : j < l.length) :
    (l.take (j + 1)).getLast? = l.get? j := by
  induction l generalizing j with
  | nil => simp at hj
  | cons a t ih =>
    cases j with
    | zero => rfl
    | succ j' =>
      have hj' : j' < t.length := by simpa using hj
      cases ht : t.take (j' + 1) with
      | nil =>
        have hl := congrArg List.length ht
        rw [List.length_take] at hl
        simp only [List.length_nil] at hl
        rcases Nat.min_eq_zero_iff.mp hl with h1 | h1 <;> omega
      | cons b rest =>
        show ((a :: t.take (j' + 1)).getLast?) = t.get? j'
        rw [ht, List.getLast?_cons_cons, ← ht]
        exact ih j' hj'

theorem scan_head {m : Option Char → List Char → Option Nat}
    {prev : Option Char} {cs out : List Char} (h : Scan m prev cs out) :
    out = [] ∨ (∃ rest, out = replChars ++ rest)
      ∨ (∃ c cs' out', cs = c :: cs' ∧ out = c :: out') := by
  cases h with
  | done => exact Or.inl rfl
  | keep p c cs' out' _ _ => exact Or.inr (Or.inr ⟨c, cs', out', rfl, rfl⟩)
  | repl p cs out' n _ _ _ _ => exact Or.inr (Or.inl ⟨out', rfl⟩)

theorem scan_prefix {m : Option Char → List Char → Option Nat}
    {prev : Option Char} {cs out : List Char} (h : Scan m prev cs out) :
    out = cs ∨ ∃ k n', out.take k = cs.take k ∧ k ≤ cs.length
      ∧ (out.drop k).head? = some '['
      ∧ m (ctxAt prev cs k) (cs.drop k) = some n' ∧ 1 ≤ n' := by
  induction h with
  | done p => exact Or.inl rfl
  | keep p c cs' out' h0 hs ih =>
    cases ih with
    | inl he => exact Or.inl (by rw [he])
    | inr hex =>
      rcases hex with ⟨k, n', htake, hk, hhead, hmatch, hn⟩
      refine Or.inr ⟨k + 1, n', ?_, Nat.succ_le_succ hk, ?_, ?_, hn⟩
      · show c :: out'.take k = c :: cs'.take k
        rw [htake]
      · exact hhead
      · rw [← ctxAt_cons p c cs' k]
        exact hmatch
  | repl p cs out' n hm h1 hle hs ih =>
    refine Or.inr ⟨0, n, rfl, by simp, ?_, hm, h1⟩
    rfl

theorem pick_eq_some {α β : Type} {l : List α} {f : α → Option β} {b : β}
    (h : pick l f = some b) : ∃ a ∈ l, f a = some b := by
  induction l with
  | nil => exact absurd h (by simp [pick])
  | cons a t ih =>
    unfold pick List.findSome? at h
    cases hfa : f a with
    | some b' =>
      rw [hfa] at h
      exact ⟨a, List.mem_cons_self a t, hfa.trans h⟩
    | none =>
      rw [hfa] at h
      rcases ih h with ⟨a', ha', hb'⟩
      exact ⟨a', List.mem_cons_of_mem a ha', hb'⟩

theorem pick_isSome {α β : Type} {l : List α} {f : α → Option β} (a : α)
    (ha : a ∈ l) (hb : (f a).isSome = true) : (pick l f).isSome = true := by
  induction l with
  | nil => simp at ha
  | cons x t ih =>
    unfold pick List.findSome?
    cases hfx : f x with
    | some b => simp
    | none =>
      rcases List.mem_cons.mp ha with he | ht
      · subst he
        rw [hfx] at hb
        simp at hb
      · exact ih ht

theorem pick_eq_none {α β : Type} {l : List α} {f : α → Option β}
    (h : pick l f = none) : ∀ a ∈ l, f a = none := by
  intro a ha
  cases hfa : f a with
  | none => rfl
  | some b =>
    have := @pick_isSome _ _ l f a ha (by rw [hfa]; rfl)
    rw [h] at this
    simp at this

theorem drop_append_le {α : Type} (xs ys : List α) (off : Nat) (h : off ≤ xs.length) :
    (xs ++ ys).drop off = xs.drop off ++ ys := by
  induction xs generalizing off with
  | nil =>
    have : off = 0 := by simpa using h
    subst this; rfl
  | cons a t ih =>
    cases off with
    | zero => rfl
    | succ o =>
      show (t ++ ys).drop o = t.drop o ++ ys
      exact ih o (by simpa using h)

theorem take_append_le {α : Type} (xs ys : List α) (k : Nat) (h : k ≤ xs.length) :
    (xs ++ ys).take k = xs.take k := by
  induction xs generalizing k with
  | nil =>
    have : k = 0 := by simpa using h
    subst this; rfl
  | cons a t ih =>
    cases k with
    | zero => rfl
    | succ j =>
      show a :: (t ++ ys).take j = a :: t.take j
      rw [ih j (by simpa using h)]

theorem take_transfer {α : Type} (xs ys : List α) (off k : Nat)
    (h : off + k ≤ xs.length) :
    ((xs ++ ys).drop off).take k = (xs.drop off).take k := by
  rw [drop_append_le xs ys off (by omega)]
  exact take_append_le _ _ _ (by simp; omega)

theorem head?_transfer {α : Type} (xs ys : List α) (off : Nat)
    (h : off < xs.length) :
    ((xs ++ ys).drop off).head? = (xs.drop off).head? := by
  rw [drop_append_le xs ys off (by omega)]
  cases hx : xs.drop off with
  | nil =>
    have := congrArg List.length hx
    simp at this
    omega
  | cons a t => rfl

/-- Properties of a context-free matcher (no `\b` in its pattern) that
make one `re.sub` pass idempotence-safe. -/
structure CFMatcher (f : List Char → Option Nat) : Prop where
  empty : f [] = none
  onRepl : ∀ i rest, i < replChars.length → f (replChars.drop i ++ rest) = none
  confine : ∀ cs n, f cs = some n → '[' ∉ cs.take n
  pos : ∀ cs n, f cs = some n → 1 ≤ n ∧ n ≤ cs.length
  swap : ∀ xs ys zs nm, f (xs ++ ys) = some nm → nm ≤ xs.length →
      (f (xs ++ zs)).isSome = true

/-- Properties of a `\b`-anchored matcher that make one `re.sub` pass
idempotence-safe. -/
structure BMatcher (m : Option Char → List Char → Option Nat) : Prop where
  empty : ∀ p, m p [] = none
  onRepl : ∀ p i rest, i < replChars.length → m p (replChars.drop i ++ rest) = none
  confine : ∀ p cs n, m p cs = some n → '[' ∉ cs.take n
  pos : ∀ p cs n, m p cs = some n → 1 ≤ n ∧ n ≤ cs.length
  swapLt : ∀ p xs ys zs nm, m p (xs ++ ys) = some nm → nm < xs.length →
      (m p (xs ++ zs)).isSome = true
  left : ∀ p cs n, m p cs = some n → boundaryLeft p = true
  lastWord : ∀ p cs n, m p cs = some n →
      ∃ ch, cs.get? (n - 1) = some ch ∧ isWordChar ch = true
  trailNW : ∀ p cs n, m p cs = some n →
      cs.drop n = [] ∨ ∃ ch t, cs.drop n = ch :: t ∧ isWordChar ch = false
  nwFail : ∀ q c t, isWordChar c = false → m q (c :: t) = none

/-! ### List helper lemmas for the matcher obligations -/

theorem take_length_takeWhile (p : Char → Bool) (l : List Char) :
    l.take (l.takeWhile p).length = l.takeWhile p := by
  induction l with
  | nil => rfl
  | cons a t ih =>
    cases hp : p a with
    | true => simp [List.takeWhile_cons, hp, ih]
    | false => simp [List.takeWhile_cons, hp]

theorem takeWhile_append_congr (p : Char → Bool) (A B C : List Char)
    (h : ((A ++ B).takeWhile p).length < A.length) :
    (A ++ C).takeWhile p = (A ++ B).takeWhile p := by
  induction A with
  | nil => simp at h
  | cons a t ih =>
    cases hp : p a with
    | false => simp [List.takeWhile_cons, hp]
    | true =>
      simp only [List.cons_append, List.takeWhile_cons, hp] at h ⊢
      simp only [List.length_cons] at h
      rw [ih (Nat.lt_of_succ_lt_succ h)]

theorem cons_of_head? {α : Type} {l : List α} {a : α} (h : l.head? = some a) :
    l = a :: l.tail := by
  cases l with
  | nil => exact absurd h (by simp)
  | cons c t =>
    simp only [List.head?_cons, Option.some.injEq] at h
    rw [h]
    rfl

theorem len_takeWhile_le (p : Char → Bool) (l : List Char) :
    (l.takeWhile p).length ≤ l.length :=
  (List.takeWhile_prefix p).length_le

theorem takeWhile_middle (p : Char → Bool) (pre : List Char) (c : Char)
    (rest : List Char) (hpre : ∀ a ∈ pre, p a = true) (hc : p c = false) :
    (pre ++ c :: rest).takeWhile p = pre := by
  induction pre with
  | nil => simp [List.takeWhile_cons, hc]
  | cons a t ih =>
    have ha : p a = true := hpre a (List.mem_cons_self a t)
    simp only [List.cons_append, List.takeWhile_cons, ha, if_true]
    rw [ih (fun x hx => hpre x (List.mem_cons_of_mem a hx))]

theorem takeWhile_pos_head {p : Char → Bool} {c : Char} {t : List Char}
    (h : p c = true) : 1 ≤ ((c :: t).takeWhile p).length := by
  simp [List.takeWhile_cons, h]

theorem head_of_takeWhile_pos {p : Char → Bool} {l : List Char}
    (h : 1 ≤ (l.takeWhile p).length) : ∃ c t, l = c :: t ∧ p c = true := by
  cases l with
  | nil => simp at h
  | cons c t =>
    cases hp : p c with
    | false => simp [List.takeWhile_cons, hp] at h
    | true => exact ⟨c, t, rfl, hp⟩

/-! ### Email matcher obligations -/

theorem emailDomTail_eq (r : List Char) :
    emailDomTail r =
      if (r.takeWhile isDomAChar).length = 0 then none
      else if (r.drop (r.takeWhile isDomAChar).length).head? = some '.' then
        (if (((r.drop (r.takeWhile isDomAChar).length).tail).takeWhile
              isDomBChar).length = 0
          then none
          else some ((r.takeWhile isDomAChar).length + 1 +
            (((r.drop (r.takeWhile isDomAChar).length).tail).takeWhile
              isDomBChar).length))
      else none := rfl

theorem emailAt_eq (cs : List Char) :
    emailAt cs =
      if (cs.takeWhile isLocalChar).length = 0 then none
      else if (cs.drop (cs.takeWhile isLocalChar).length).head? = some '@' then
        (emailDomTail ((cs.drop (cs.takeWhile isLocalChar).length).tail)).map
          (fun k => (cs.takeWhile isLocalChar).length + 1 + k)
      else none := rfl

/-- The decomposition a successful domain-part match induces. -/
def DomShape (r : List Char) (k : Nat) : Prop :=
  1 ≤ (r.takeWhile isDomAChar).length ∧
  (r.drop (r.takeWhile isDomAChar).length).head? = some '.' ∧
  1 ≤ (((r.drop (r.takeWhile isDomAChar).length).tail).takeWhile isDomBChar).length ∧
  k = (r.takeWhile isDomAChar).length + 1 +
      (((r.drop (r.takeWhile isDomAChar).length).tail).takeWhile isDomBChar).length

theorem emailDomTail_some_iff (r : List Char) (k : Nat) :
    emailDomTail r = some k ↔ DomShape r k := by
  rw [emailDomTail_eq]
  constructor
  · intro h
    split at h
    · exact absurd h (by simp)
    · split at h
      · split at h
        · exact absurd h (by simp)
        · rename_i h1 h2 h3
          injection h with hk
          exact ⟨by omega, h2, by omega, hk.symm⟩
      · exact absurd h (by simp)
  · rintro ⟨h1, h2, h3, hk⟩
    rw [if_neg (by omega), if_pos h2, if_neg (by omega), hk]

/-- The decomposition a successful email match induces. -/
def EmailShape (cs : List Char) (n : Nat) : Prop :=
  ∃ k, 1 ≤ (cs.takeWhile isLocalChar).length ∧
    (cs.drop (cs.takeWhile isLocalChar).length).head? = some '@' ∧
    DomShape ((cs.drop (cs.takeWhile isLocalChar).length).tail) k ∧
    n = (cs.takeWhile isLocalChar).length + 1 + k

theorem emailAt_some_iff (cs : List Char) (n : Nat) :
    emailAt cs = some n ↔ EmailShape cs n := by
  rw [emailAt_eq]
  constructor
  · intro h
    split at h
    · exact absurd h (by simp)
    · split at h
      · rename_i h1 h2
        rcases Option.map_eq_some'.mp h with ⟨k, hk, hn⟩
        exact ⟨k, by omega, h2, (emailDomTail_some_iff _ _).mp hk, hn.symm⟩
      · exact absurd h (by simp)
  · rintro ⟨k, h1, h2, hd, hn⟩
    rw [if_neg (by omega), if_pos h2, (emailDomTail_some_iff _ _).mpr hd]
    simp [hn]

theorem domShape_le {r : List Char} {k : Nat} (h : DomShape r k) :
    1 ≤ k ∧ k ≤ r.length := by
  obtain ⟨h1, h2, h3, hk⟩ := h
  have hl2 : (r.takeWhile isDomAChar).length ≤ r.length := len_takeWhile_le _ _
  have hne : (r.drop (r.takeWhile isDomAChar).length).length
      = r.length - (r.takeWhile isDomAChar).length := List.length_drop _ _
  have hpos : r.drop (r.takeWhile isDomAChar).length ≠ [] := by
    intro hnil
    rw [hnil] at h2
    exact absurd h2 (by simp)
  have hpos' : 1 ≤ (r.drop (r.takeWhile isDomAChar).length).length :=
    Nat.one_le_iff_ne_zero.mpr (fun h0 => hpos (List.eq_nil_of_length_eq_zero h0))
  have h3le : (((r.drop (r.takeWhile isDomAChar).length).tail).takeWhile
      isDomBChar).length ≤ ((r.drop (r.takeWhile isDomAChar).length).tail).length :=
    len_takeWhile_le _ _
  have htl : ((r.drop (r.takeWhile isDomAChar).length).tail).length
      = (r.drop (r.takeWhile isDomAChar).length).length - 1 := List.length_tail _
  omega

theorem emailShape_le {cs : List Char} {n : Nat} (h : EmailShape cs n) :
    1 ≤ n ∧ n ≤ cs.length := by
  obtain ⟨k, h1, h2, hd, hn⟩ := h
  obtain ⟨hk1, hk2⟩ := domShape_le hd
  have hl1 : (cs.takeWhile isLocalChar).length ≤ cs.length := len_takeWhile_le _ _
  have hne : (cs.drop (cs.takeWhile isLocalChar).length).length
      = cs.length - (cs.takeWhile isLocalChar).length := List.length_drop _ _
  have hpos : cs.drop (cs.takeWhile isLocalChar).length ≠ [] := by
    intro hnil
    rw [hnil] at h2
    exact absurd h2 (by simp)
  have hpos' : 1 ≤ (cs.drop (cs.takeWhile isLocalChar).length).length :=
    Nat.one_le_iff_ne_zero.mpr (fun h0 => hpos (List.eq_nil_of_length_eq_zero h0))
  have htl : ((cs.drop (cs.takeWhile isLocalChar).length).tail).length
      = (cs.drop (cs.takeWhile isLocalChar).length).length - 1 := List.length_tail _
  omega

theorem domShape_chars {r : List Char} {k : Nat} (h : DomShape r k) :
    ∀ c ∈ r.take k, isDomBChar c = true := by
  obtain ⟨h1, h2, h3, hk⟩ := h
  obtain ⟨tl, htl⟩ : ∃ tl, r.drop (r.takeWhile isDomAChar).length = '.' :: tl :=
    ⟨_, cons_of_head? h2⟩
  simp only [htl, List.tail_cons] at h3 hk
  intro c hc
  rw [hk, show (r.takeWhile isDomAChar).length + 1 + (tl.takeWhile isDomBChar).length
      = (r.takeWhile isDomAChar).length + (1 + (tl.takeWhile isDomBChar).length)
      from by omega,
    List.take_add, take_length_takeWhile, htl,
    show 1 + (tl.takeWhile isDomBChar).length
      = (tl.takeWhile isDomBChar).length + 1 from by omega,
    List.take_succ_cons] at hc
  rcases List.mem_append.mp hc with hm | hm
  · have := List.mem_takeWhile_imp hm
    simp [isDomBChar, this]
  · rcases List.mem_cons.mp hm with he | hm2
    · rw [he]; decide
    · rw [take_length_takeWhile] at hm2
      exact List.mem_takeWhile_imp hm2

theorem email_confine {cs : List Char} {n : Nat} (h : emailAt cs = some n) :
    '[' ∉ cs.take n := by
  obtain ⟨k, h1, h2, hd, hn⟩ := (emailAt_some_iff cs n).mp h
  obtain ⟨tl, htl⟩ : ∃ tl, cs.drop (cs.takeWhile isLocalChar).length = '@' :: tl :=
    ⟨_, cons_of_head? h2⟩
  simp only [htl, List.tail_cons] at hd
  intro hmem
  rw [hn, show (cs.takeWhile isLocalChar).length + 1 + k
      = (cs.takeWhile isLocalChar).length + (1 + k) from by omega,
    List.take_add, take_length_takeWhile, htl,
    show 1 + k = k + 1 from by omega, List.take_succ_cons] at hmem
  rcases List.mem_append.mp hmem with hm | hm
  · have := List.mem_takeWhile_imp hm
    exact absurd this (by decide)
  · rcases List.mem_cons.mp hm with he | hm2
    · exact absurd he (by decide)
    · exact absurd (domShape_chars hd _ hm2) (by decide)

theorem email_none_head {c : Char} (t : List Char) (hc : isLocalChar c = false) :
    emailAt (c :: t) = none := by
  rw [emailAt_eq, if_pos (by simp [List.takeWhile_cons, hc])]

theorem email_none_mid (pre : List Char) (t : List Char) (hne : pre ≠ [])
    (hpre : ∀ a ∈ pre, isLocalChar a = true) :
    emailAt (pre ++ ']' :: t) = none := by
  rw [emailAt_eq, takeWhile_middle isLocalChar pre ']' t hpre (by decide),
    if_neg (by
      intro h0
      exact hne (List.eq_nil_of_length_eq_zero h0)),
    List.drop_left, if_neg (by simp)]

theorem email_onRepl : ∀ i rest, i < replChars.length →
    emailAt (replChars.drop i ++ rest) = none := by
  intro i rest hi
  have h10 : replChars.length = 10 := rfl
  rw [h10] at hi
  interval_cases i
  · exact email_none_head _ (by decide)
  · exact email_none_mid ['R', 'E', 'D', 'A', 'C', 'T', 'E', 'D'] rest
      (by decide) (by decide)
  · exact email_none_mid ['E', 'D', 'A', 'C', 'T', 'E', 'D'] rest
      (by decide) (by decide)
  · exact email_none_mid ['D', 'A', 'C', 'T', 'E', 'D'] rest (by decide) (by decide)
  · exact email_none_mid ['A', 'C', 'T', 'E', 'D'] rest (by decide) (by decide)
  · exact email_none_mid ['C', 'T', 'E', 'D'] rest (by decide) (by decide)
  · exact email_none_mid ['T', 'E', 'D'] rest (by decide) (by decide)
  · exact email_none_mid ['E', 'D'] rest (by decide) (by decide)
  · exact email_none_mid ['D'] rest (by decide) (by decide)
  · exact email_none_head _ (by decide)

theorem dom_swap {A B C : List Char} {k : Nat} (h : DomShape (A ++ B) k)
    (hk : k ≤ A.length) : ∃ kk, DomShape (A ++ C) kk := by
  obtain ⟨h1, h2, h3, hkk⟩ := h
  have hl2lt : ((A ++ B).takeWhile isDomAChar).length < A.length := by omega
  have hcong : (A ++ C).takeWhile isDomAChar = (A ++ B).takeWhile isDomAChar :=
    takeWhile_append_congr _ A B C hl2lt
  have hxd : A.drop ((A ++ B).takeWhile isDomAChar).length
      = '.' :: (A.drop ((A ++ B).takeWhile isDomAChar).length).tail :=
    cons_of_head? (by
      rw [← head?_transfer A B ((A ++ B).takeWhile isDomAChar).length hl2lt]
      exact h2)
  have htailB : ((A ++ B).drop ((A ++ B).takeWhile isDomAChar).length).tail
      = (A.drop ((A ++ B).takeWhile isDomAChar).length).tail ++ B := by
    rw [drop_append_le A B _ (Nat.le_of_lt hl2lt), hxd]
    rfl
  have htailC : ((A ++ C).drop ((A ++ B).takeWhile isDomAChar).length).tail
      = (A.drop ((A ++ B).takeWhile isDomAChar).length).tail ++ C := by
    rw [drop_append_le A C _ (Nat.le_of_lt hl2lt), hxd]
    rfl
  rw [htailB] at h3 hkk
  obtain ⟨c0, t0, he0, hp0⟩ := head_of_takeWhile_pos h3
  have hmidlen : (A.drop ((A ++ B).takeWhile isDomAChar).length).tail.length
      = A.length - ((A ++ B).takeWhile isDomAChar).length - 1 := by
    rw [List.length_tail, List.length_drop]
  have hmidpos : 1 ≤ (A.drop ((A ++ B).takeWhile isDomAChar).length).tail.length := by
    omega
  obtain ⟨m0, mt, hm⟩ : ∃ m0 mt,
      (A.drop ((A ++ B).takeWhile isDomAChar).length).tail = m0 :: mt := by
    cases hmm : (A.drop ((A ++ B).takeWhile isDomAChar).length).tail with
    | nil =>
      rw [hmm] at hmidpos
      simp at hmidpos
    | cons a b => exact ⟨a, b, rfl⟩
  have hm0 : isDomBChar m0 = true := by
    rw [hm] at he0
    simp only [List.cons_append] at he0
    injection he0 with hh1 hh2
    rw [hh1]
    exact hp0
  refine ⟨((A ++ C).takeWhile isDomAChar).length + 1 +
      ((((A ++ C).drop ((A ++ C).takeWhile isDomAChar).length).tail).takeWhile
        isDomBChar).length, ?_, ?_, ?_, rfl⟩
  · rw [hcong]
    exact h1
  · rw [hcong, head?_transfer A C _ hl2lt, hxd]
    rfl
  · rw [hcong, htailC, hm]
    simp only [List.cons_append]
    exact takeWhile_pos_head hm0

theorem email_swap {xs ys zs : List Char} {nm : Nat}
    (h : emailAt (xs ++ ys) = some nm) (hle : nm ≤ xs.length) :
    (emailAt (xs ++ zs)).isSome = true := by
  obtain ⟨k, h1, h2, hd, hn⟩ := (emailAt_some_iff _ _).mp h
  obtain ⟨hk1, hk2⟩ := domShape_le hd
  have hl1lt : ((xs ++ ys).takeWhile isLocalChar).length < xs.length := by omega
  have hcong : (xs ++ zs).takeWhile isLocalChar = (xs ++ ys).takeWhile isLocalChar :=
    takeWhile_append_congr _ xs ys zs hl1lt
  have hxd : xs.drop ((xs ++ ys).takeWhile isLocalChar).length
      = '@' :: (xs.drop ((xs ++ ys).takeWhile isLocalChar).length).tail :=
    cons_of_head? (by
      rw [← head?_transfer xs ys ((xs ++ ys).takeWhile isLocalChar).length hl1lt]
      exact h2)
  have htailB : ((xs ++ ys).drop ((xs ++ ys).takeWhile isLocalChar).length).tail
      = (xs.drop ((xs ++ ys).takeWhile isLocalChar).length).tail ++ ys := by
    rw [drop_append_le xs ys _ (Nat.le_of_lt hl1lt), hxd]
    rfl
  have htailC : ((xs ++ zs).drop ((xs ++ ys).takeWhile isLocalChar).length).tail
      = (xs.drop ((xs ++ ys).takeWhile isLocalChar).length).tail ++ zs := by
    rw [drop_append_le xs zs _ (Nat.le_of_lt hl1lt), hxd]
    rfl
  rw [htailB] at hd
  have hmidlen : (xs.drop ((xs ++ ys).takeWhile isLocalChar).length).tail.length
      = xs.length - ((xs ++ ys).takeWhile isLocalChar).length - 1 := by
    rw [List.length_tail, List.length_drop]
  have hkle : k ≤ (xs.drop ((xs ++ ys).takeWhile isLocalChar).length).tail.length := by
    omega
  obtain ⟨kk, hdk⟩ := dom_swap hd hkle
  have hsome : emailAt (xs ++ zs)
      = some (((xs ++ zs).takeWhile isLocalChar).length + 1 + kk) := by
    apply (emailAt_some_iff _ _).mpr
    refine ⟨kk, ?_, ?_, ?_, rfl⟩
    · rw [hcong]
      exact h1
    · rw [hcong, head?_transfer xs zs _ hl1lt, hxd]
      rfl
    · rw [hcong, htailC]
      exact hdk
  rw [hsome]
  rfl

theorem emailCF : CFMatcher emailAt where
  empty := rfl
  onRepl := email_onRepl
  confine := fun _ _ h => email_confine h
  pos := fun cs n h => emailShape_le ((emailAt_some_iff cs n).mp h)
  swap := fun _ _ _ _ h hle => email_swap h hle

/-! ### Generic single-pass and preservation lemmas -/

theorem get?_eq_head?_drop {α : Type} (l : List α) (k : Nat) :
    l.get? k = (l.drop k).head? := by
  induction l generalizing k with
  | nil => simp
  | cons a t ih =>
    cases k with
    | zero => rfl
    | succ j => exact ih j

theorem drop_append_add {α : Type} (xs ys : List α) (j : Nat) :
    (xs ++ ys).drop (xs.length + j) = ys.drop j := by
  induction xs with
  | nil => simp
  | cons a t ih =>
    have harith : (a :: t).length + j = (t.length + j) + 1 := by
      simp [List.length_cons]
      omega
    rw [List.cons_append, harith, List.drop_succ_cons]
    exact ih

theorem cf_keep_head {f : List Char → Option Nat} (hf : CFMatcher f)
    {m' : Option Char → List Char → Option Nat} {c : Char}
    {cs' out' : List Char} (hs : Scan m' (some c) cs' out')
    (h0 : f (c :: cs') = none) : f (c :: out') = none := by
  cases hfo : f (c :: out') with
  | none => rfl
  | some nm =>
    exfalso
    rcases scan_prefix hs with he | ⟨k, n', htake, hk, hhead, hmatch, hn1⟩
    · rw [he] at hfo
      rw [h0] at hfo
      exact Option.noConfusion hfo
    · have hXsplit : c :: out' = (c :: cs'.take k) ++ out'.drop k := by
        conv_lhs => rw [← List.take_append_drop k out']
        rw [htake]
        rfl
      have hXsplit' : c :: cs' = (c :: cs'.take k) ++ cs'.drop k := by
        conv_lhs => rw [← List.take_append_drop k cs']
        rfl
      have hXlen : (c :: cs'.take k).length = k + 1 := by
        simp [List.length_take, Nat.min_eq_left hk]
      by_cases hcase : nm ≤ k + 1
      · have hsw := hf.swap (c :: cs'.take k) (out'.drop k) (cs'.drop k) nm
          (by rw [← hXsplit]; exact hfo) (by omega)
        rw [← hXsplit', h0] at hsw
        simp at hsw
      · have hconf := hf.confine _ _ hfo
        have hg : (c :: out').get? (k + 1) = some '[' := by
          show out'.get? k = some '['
          rw [get?_eq_head?_drop]
          exact hhead
        have hmem : '[' ∈ (c :: out').take nm := by
          apply List.get?_mem
          rw [List.get?_take (show k + 1 < nm from by omega), hg]
        exact hconf hmem

theorem cf_repl_parts {f : List Char → Option Nat} (hf : CFMatcher f)
    {out' : List Char} (ih : ∀ i, f (out'.drop i) = none) :
    ∀ i, f ((replChars ++ out').drop i) = none := by
  intro i
  have h10 : replChars.length = 10 := rfl
  by_cases hi : i < 10
  · rw [drop_append_le _ _ _ (by omega)]
    exact hf.onRepl i out' (by omega)
  · obtain ⟨j, rfl⟩ : ∃ j, i = replChars.length + j := ⟨i - 10, by omega⟩
    rw [drop_append_add]
    exact ih j

theorem scan_noMatch_CF {f : List Char → Option Nat} (hf : CFMatcher f)
    {prev : Option Char} {cs out : List Char}
    (hs : Scan (fun _ => f) prev cs out) : ∀ i, f (out.drop i) = none := by
  induction hs with
  | done p =>
    intro i
    rw [List.drop_nil]
    exact hf.empty
  | keep p c cs' out' h0 hsc ih =>
    intro i
    cases i with
    | zero => exact cf_keep_head hf hsc h0
    | succ j => exact ih j
  | repl p cs1 out' n hm h1 hle hsc ih => exact cf_repl_parts hf ih

theorem scan_preserve_CF {f : List Char → Option Nat} (hf : CFMatcher f)
    {m' : Option Char → List Char → Option Nat} {prev : Option Char}
    {cs out : List Char} (hs : Scan m' prev cs out)
    (hnm : ∀ i, f (cs.drop i) = none) : ∀ i, f (out.drop i) = none := by
  revert hnm
  induction hs with
  | done p =>
    intro _ i
    rw [List.drop_nil]
    exact hf.empty
  | keep p c cs' out' h0 hsc ih =>
    intro hnm i
    cases i with
    | zero => exact cf_keep_head hf hsc (hnm 0)
    | succ j => exact ih (fun j' => hnm (j' + 1)) j
  | repl p cs1 out' n hm h1 hle hsc ih =>
    intro hnm
    refine cf_repl_parts hf (ih ?_)
    intro j
    rw [List.drop_drop]
    exact hnm _

theorem b_keep_head {m m' : Option Char → List Char → Option Nat}
    (hf : BMatcher m)
    (hleft' : ∀ q cs n, m' q cs = some n → boundaryLeft q = true)
    {pc : Option Char} {c : Char} {cs' out' : List Char}
    (hs : Scan m' (some c) cs' out') (h0 : m pc (c :: cs') = none) :
    m pc (c :: out') = none := by
  cases hfo : m pc (c :: out') with
  | none => rfl
  | some nm =>
    exfalso
    rcases scan_prefix hs with he | ⟨k, n', htake, hk, hhead, hmatch, hn1⟩
    · rw [he] at hfo
      rw [h0] at hfo
      exact Option.noConfusion hfo
    · have hXsplit : c :: out' = (c :: cs'.take k) ++ out'.drop k := by
        conv_lhs => rw [← List.take_append_drop k out']
        rw [htake]
        rfl
      have hXsplit' : c :: cs' = (c :: cs'.take k) ++ cs'.drop k := by
        conv_lhs => rw [← List.take_append_drop k cs']
        rfl
      have hXlen : (c :: cs'.take k).length = k + 1 := by
        simp [List.length_take, Nat.min_eq_left hk]
      rcases Nat.lt_trichotomy nm (k + 1) with hcase | hcase | hcase
      · have hsw := hf.swapLt pc (c :: cs'.take k) (out'.drop k) (cs'.drop k) nm
          (by rw [← hXsplit]; exact hfo) (by omega)
        rw [← hXsplit', h0] at hsw
        simp at hsw
      · subst hcase
        obtain ⟨ch, hch, hw⟩ := hf.lastWord pc _ _ hfo
        have hctx : ctxAt (some c) cs' k = some ch := by
          cases k with
          | zero => exact hch
          | succ j =>
            show cs'.get? j = some ch
            have h1' : out'.get? j = some ch := hch
            have e1 : (cs'.take (j + 1)).get? j = cs'.get? j :=
              List.get?_take (Nat.lt_succ_self j)
            have e2 : (out'.take (j + 1)).get? j = out'.get? j :=
              List.get?_take (Nat.lt_succ_self j)
            rw [← e1, ← htake, e2, h1']
        have hbl := hleft' _ _ _ hmatch
        rw [hctx] at hbl
        simp [boundaryLeft, hw] at hbl
      · have hconf := hf.confine pc _ _ hfo
        have hg : (c :: out').get? (k + 1) = some '[' := by
          show out'.get? k = some '['
          rw [get?_eq_head?_drop]
          exact hhead
        have hmem : '[' ∈ (c :: out').take nm := by
          apply List.get?_mem
          rw [List.get?_take (show k + 1 < nm from by omega), hg]
        exact hconf hmem

theorem b_repl_parts {m : Option Char → List Char → Option Nat} (hf : BMatcher m)
    {p' : Option Char} {out' : List Char} (ih : NoMatch m p' out')
    (hhead : out' = [] ∨ ∃ ch t, out' = ch :: t ∧ isWordChar ch = false) :
    ∀ (p : Option Char) (i : Nat),
      m (ctxAt p (replChars ++ out') i) ((replChars ++ out').drop i) = none := by
  intro p i
  have h10 : replChars.length = 10 := rfl
  by_cases hi : i < 10
  · rw [drop_append_le _ _ _ (by omega)]
    exact hf.onRepl _ i out' (by omega)
  · obtain ⟨j, rfl⟩ : ∃ j, i = 10 + j := ⟨i - 10, by omega⟩
    have hda : (replChars ++ out').drop (10 + j) = out'.drop j := by
      rw [show (10 : Nat) + j = replChars.length + j from by rw [h10],
        drop_append_add]
    rw [hda]
    cases j with
    | zero =>
      have hctx : ctxAt p (replChars ++ out') (10 + 0) = some ']' := by
        show (replChars ++ out').get? 9 = some ']'
        rw [List.get?_append (by rw [h10]; omega)]
        rfl
      rw [hctx]
      show m (some ']') out' = none
      rcases hhead with hnil | ⟨ch, t, hcons, hnw⟩
      · rw [hnil]
        exact hf.empty _
      · rw [hcons]
        exact hf.nwFail _ ch t hnw
    | succ jj =>
      have hctx : ctxAt p (replChars ++ out') (10 + (jj + 1)) = out'.get? jj := by
        show (replChars ++ out').get? (10 + jj) = out'.get? jj
        rw [get?_eq_head?_drop, get?_eq_head?_drop,
          show (10 : Nat) + jj = replChars.length + jj from by rw [h10],
          drop_append_add]
      rw [hctx]
      exact ih (jj + 1)

theorem scan_noMatch_B {m : Option Char → List Char → Option Nat} (hf : BMatcher m)
    {prev : Option Char} {cs out : List Char} (hs : Scan m prev cs out) :
    NoMatch m prev out := by
  induction hs with
  | done p =>
    intro i
    rw [List.drop_nil]
    exact hf.empty _
  | keep p c cs' out' h0 hsc ih =>
    exact noMatch_cons (b_keep_head hf hf.left hsc h0) ih
  | repl p cs1 out' n hm h1 hle hsc ih =>
    have hhead : out' = [] ∨ ∃ ch t, out' = ch :: t ∧ isWordChar ch = false := by
      rcases scan_head hsc with h' | ⟨rest, h'⟩ | ⟨c0, cs0, out0, hcs, hout⟩
      · exact Or.inl h'
      · exact Or.inr ⟨'[', replChars.tail ++ rest, by rw [h']; rfl, by decide⟩
      · rcases hf.trailNW _ _ _ hm with hnil | ⟨ch, t, hdr, hnw⟩
        · rw [hnil] at hcs
          exact absurd hcs (by simp)
        · rw [hdr] at hcs
          injection hcs with hc1 hc2
          exact Or.inr ⟨c0, out0, hout, by rw [← hc1]; exact hnw⟩
    exact fun i => b_repl_parts hf ih hhead p i

theorem scan_preserve_B {m m' : Option Char → List Char → Option Nat}
    (hf : BMatcher m) (hf' : BMatcher m')
    {prev : Option Char} {cs out : List Char} (hs : Scan m' prev cs out)
    (hnm : NoMatch m prev cs) : NoMatch m prev out := by
  revert hnm
  induction hs with
  | done p =>
    intro _ i
    rw [List.drop_nil]
    exact hf.empty _
  | keep p c cs' out' h0 hsc ih =>
    intro hnm
    exact noMatch_cons (b_keep_head hf hf'.left hsc (hnm 0))
      (ih (noMatch_of_cons hnm))
  | repl p cs1 out' n hm h1 hle hsc ih =>
    intro hnm
    have hci : (cs1.take n).getLast? = ctxAt p cs1 n := by
      cases n with
      | zero => exact absurd h1 (by simp)
      | succ nn =>
        show (cs1.take (nn + 1)).getLast? = cs1.get? nn
        exact getLast?_take_succ cs1 nn (by
          have := hle
          simp only [List.length_cons] at this
          omega)
    have ihout : NoMatch m ((cs1.take n).getLast?) out' := by
      apply ih
      rw [hci]
      exact noMatch_drop hnm n
    have hhead : out' = [] ∨ ∃ ch t, out' = ch :: t ∧ isWordChar ch = false := by
      rcases scan_head hsc with h' | ⟨rest, h'⟩ | ⟨c0, cs0, out0, hcs, hout⟩
      · exact Or.inl h'
      · exact Or.inr ⟨'[', replChars.tail ++ rest, by rw [h']; rfl, by decide⟩
      · rcases hf'.trailNW _ _ _ hm with hnil | ⟨ch, t, hdr, hnw⟩
        · rw [hnil] at hcs
          exact absurd hcs (by simp)
        · rw [hdr] at hcs
          injection hcs with hc1 hc2
          exact Or.inr ⟨c0, out0, hout, by rw [← hc1]; exact hnw⟩
    exact fun i => b_repl_parts hf ihout hhead p i

/-! ### ID-card matcher obligations -/

theorem digit_word {c : Char} (h : isAsciiDigit c = true) : isWordChar c = true := by
  simp [isWordChar, h]

theorem word_of_idTail {c : Char} (h : isIdTail c = true) : isWordChar c = true := by
  simp only [isIdTail, Bool.or_eq_true, decide_eq_true_eq] at h
  rcases h with (hd | hX) | hx
  · exact digit_word hd
  · rw [hX]
    decide
  · rw [hx]
    decide

theorem boundaryRight_congr {l1 l2 : List Char} (h : l1.head? = l2.head?) :
    boundaryRight l1 = boundaryRight l2 := by
  cases l1 with
  | nil =>
    cases l2 with
    | nil => rfl
    | cons b t => exact absurd h (by simp)
  | cons a s =>
    cases l2 with
    | nil => exact absurd h (by simp)
    | cons b t =>
      simp only [List.head?_cons, Option.some.injEq] at h
      show (!isWordChar a) = (!isWordChar b)
      rw [h]

theorem idCardAt_some_inv {p : Option Char} {cs : List Char} {n : Nat}
    (h : idCardAt p cs = some n) :
    n = 18 ∧ (cs.take 17).all isAsciiDigit = true ∧ 18 ≤ cs.length ∧
    ((cs.drop 17).take 1).all isIdTail = true ∧ boundaryLeft p = true ∧
    boundaryRight (cs.drop 18) = true := by
  unfold idCardAt at h
  split at h
  · rename_i hc
    injection h with hn
    simp only [Bool.and_eq_true, decide_eq_true_eq] at hc
    exact ⟨hn.symm, hc.1.1.1.1, hc.1.1.1.2, hc.1.1.2, hc.1.2, hc.2⟩
  · exact absurd h (by simp)

theorem idCard_none_head {q : Option Char} {c : Char} (t : List Char)
    (hc : isAsciiDigit c = false) : idCardAt q (c :: t) = none := by
  unfold idCardAt
  rw [if_neg (by
    rw [show (c :: t).take 17 = c :: t.take 16 from rfl]
    simp [hc])]

theorem idCard_onRepl : ∀ (p : Option Char) (i : Nat) (rest : List Char),
    i < replChars.length → idCardAt p (replChars.drop i ++ rest) = none := by
  intro p i rest hi
  have h10 : replChars.length = 10 := rfl
  rw [h10] at hi
  interval_cases i
  · exact idCard_none_head _ (by decide)
  · exact idCard_none_head _ (by decide)
  · exact idCard_none_head _ (by decide)
  · exact idCard_none_head _ (by decide)
  · exact idCard_none_head _ (by decide)
  · exact idCard_none_head _ (by decide)
  · exact idCard_none_head _ (by decide)
  · exact idCard_none_head _ (by decide)
  · exact idCard_none_head _ (by decide)
  · exact idCard_none_head _ (by decide)

theorem idCard_confine {p : Option Char} {cs : List Char} {n : Nat}
    (h : idCardAt p cs = some n) : '[' ∉ cs.take n := by
  obtain ⟨hn, hd, hl, hid, hbl, hbr⟩ := idCardAt_some_inv h
  subst hn
  intro hmem
  rw [show (18 : Nat) = 17 + 1 from rfl, List.take_add] at hmem
  rcases List.mem_append.mp hmem with hm | hm
  · exact absurd (List.all_eq_true.mp hd _ hm) (by decide)
  · exact absurd (List.all_eq_true.mp hid _ hm) (by decide)

theorem idCard_swapLt {p : Option Char} {xs ys zs : List Char} {nm : Nat}
    (h : idCardAt p (xs ++ ys) = some nm) (hlt : nm < xs.length) :
    (idCardAt p (xs ++ zs)).isSome = true := by
  obtain ⟨hn, hd, hl, hid, hbl, hbr⟩ := idCardAt_some_inv h
  subst hn
  have h17 : (xs ++ zs).take 17 = (xs ++ ys).take 17 := by
    rw [take_append_le xs zs 17 (by omega), take_append_le xs ys 17 (by omega)]
  have h171 : ((xs ++ zs).drop 17).take 1 = ((xs ++ ys).drop 17).take 1 := by
    rw [take_transfer xs zs 17 1 (by omega), take_transfer xs ys 17 1 (by omega)]
  have hbr' : boundaryRight ((xs ++ zs).drop 18) = true := by
    have e1 : ((xs ++ zs).drop 18).head? = (xs.drop 18).head? :=
      head?_transfer _ _ _ (by omega)
    have e2 : ((xs ++ ys).drop 18).head? = (xs.drop 18).head? :=
      head?_transfer _ _ _ (by omega)
    exact (boundaryRight_congr (e1.trans e2.symm)).trans hbr
  have hsome : idCardAt p (xs ++ zs) = some 18 := by
    unfold idCardAt
    rw [if_pos (by
      rw [h17, h171]
      simp only [Bool.and_eq_true, decide_eq_true_eq]
      refine ⟨⟨⟨⟨hd, ?_⟩, hid⟩, hbl⟩, hbr'⟩
      rw [List.length_append]
      omega)]
  rw [hsome]
  rfl

theorem idCard_lastWord {p : Option Char} {cs : List Char} {n : Nat}
    (h : idCardAt p cs = some n) :
    ∃ ch, cs.get? (n - 1) = some ch ∧ isWordChar ch = true := by
  obtain ⟨hn, hd, hl, hid, hbl, hbr⟩ := idCardAt_some_inv h
  subst hn
  obtain ⟨ch, tl, hct⟩ : ∃ ch tl, cs.drop 17 = ch :: tl := by
    cases hc : cs.drop 17 with
    | nil =>
      have := congrArg List.length hc
      rw [List.length_drop] at this
      simp at this
      omega
    | cons a b => exact ⟨a, b, rfl⟩
  rw [hct] at hid
  simp only [List.take_succ_cons, List.take_zero, List.all_cons, List.all_nil,
    Bool.and_true] at hid
  refine ⟨ch, ?_, word_of_idTail hid⟩
  show cs.get? 17 = some ch
  rw [get?_eq_head?_drop, hct]
  rfl

theorem idCard_trailNW {p : Option Char} {cs : List Char} {n : Nat}
    (h : idCardAt p cs = some n) :
    cs.drop n = [] ∨ ∃ ch t, cs.drop n = ch :: t ∧ isWordChar ch = false := by
  obtain ⟨hn, hd, hl, hid, hbl, hbr⟩ := idCardAt_some_inv h
  subst hn
  cases hc : cs.drop 18 with
  | nil => exact Or.inl rfl
  | cons a t =>
    rw [hc] at hbr
    have : isWordChar a = false := by
      cases hw : isWordChar a with
      | false => rfl
      | true =>
        rw [show boundaryRight (a :: t) = !isWordChar a from rfl, hw] at hbr
        exact absurd hbr (by simp)
    exact Or.inr ⟨a, t, rfl, this⟩

theorem idCard_nwFail : ∀ (q : Option Char) (c : Char) (t : List Char),
    isWordChar c = false → idCardAt q (c :: t) = none := by
  intro q c t hw
  apply idCard_none_head
  cases hd : isAsciiDigit c with
  | false => rfl
  | true => exact absurd (digit_word hd) (by rw [hw]; simp)

theorem idCardBM : BMatcher idCardAt where
  empty := fun _ => rfl
  onRepl := idCard_onRepl
  confine := fun _ _ _ h => idCard_confine h
  pos := fun _ cs n h => by
    obtain ⟨hn, _, hl, _, _, _⟩ := idCardAt_some_inv h
    omega
  swapLt := fun _ _ _ _ _ h hlt => idCard_swapLt h hlt
  left := fun _ _ _ h => (idCardAt_some_inv h).2.2.2.2.1
  lastWord := fun _ _ _ h => idCard_lastWord h
  trailNW := fun _ _ _ h => idCard_trailNW h
  nwFail := idCard_nwFail

/-! ### Phone matcher obligations -/

theorem drop_drop' {α : Type} (l : List α) (m n : Nat) :
    (l.drop m).drop n = l.drop (m + n) := by
  rw [List.drop_drop]

theorem mem_take_split {α : Type} {x : α} {l : List α} {a b : Nat}
    (h : x ∈ l.take (a + b)) : x ∈ l.take a ∨ x ∈ (l.drop a).take b := by
  rw [List.take_add] at h
  exact List.mem_append.mp h

/-- The choice tuple a successful phone match induces, with the windows
addressed by flat offsets from the match start. -/
def PhonePath (cs : List Char) (g o d1 cl s1 d2 s2 : Nat) : Prop :=
  g ∈ phonePrefixChoices cs ∧
  o ∈ optChoices (· = '(') (cs.drop g) ∧
  d1 ∈ digitsChoices 2 4 (cs.drop (g + o)) ∧
  cl ∈ optChoices (· = ')') (cs.drop (g + o + d1)) ∧
  s1 ∈ optChoices isSepChar (cs.drop (g + o + d1 + cl)) ∧
  d2 ∈ digitsChoices 3 4 (cs.drop (g + o + d1 + cl + s1)) ∧
  s2 ∈ optChoices isSepChar (cs.drop (g + o + d1 + cl + s1 + d2)) ∧
  ((cs.drop (g + o + d1 + cl + s1 + d2 + s2)).take 4).all isAsciiDigit = true ∧
  4 ≤ (cs.drop (g + o + d1 + cl + s1 + d2 + s2)).length

theorem phoneAt_some_inv {cs : List Char} {n : Nat} (h : phoneAt cs = some n) :
    ∃ g o d1 cl s1 d2 s2, PhonePath cs g o d1 cl s1 d2 s2 ∧
      n = g + o + d1 + cl + s1 + d2 + s2 + 4 := by
  unfold phoneAt at h
  obtain ⟨g, hg, h⟩ := pick_eq_some h
  obtain ⟨o, ho, h⟩ := pick_eq_some h
  obtain ⟨d1, hd1, h⟩ := pick_eq_some h
  obtain ⟨cl, hcl, h⟩ := pick_eq_some h
  obtain ⟨s1, hs1, h⟩ := pick_eq_some h
  obtain ⟨d2, hd2, h⟩ := pick_eq_some h
  obtain ⟨s2, hs2, h⟩ := pick_eq_some h
  have h' : (if ((((((((cs.drop g).drop o).drop d1).drop cl).drop s1).drop
        d2).drop s2).take 4).all isAsciiDigit
      && (4 ≤ (((((((cs.drop g).drop o).drop d1).drop cl).drop s1).drop
        d2).drop s2).length)
    then some (g + o + d1 + cl + s1 + d2 + s2 + 4) else none) = some n := h
  split at h'
  · rename_i hcond
    injection h' with hn
    simp only [Bool.and_eq_true, decide_eq_true_eq] at hcond
    simp only [drop_drop'] at hd1 hcl hs1 hd2 hs2 hcond
    exact ⟨g, o, d1, cl, s1, d2, s2,
      ⟨hg, ho, hd1, hcl, hs1, hd2, hs2, hcond.1, hcond.2⟩, hn.symm⟩
  · exact absurd h' (by simp)

theorem phonePath_isSome {cs : List Char} {g o d1 cl s1 d2 s2 : Nat}
    (h : PhonePath cs g o d1 cl s1 d2 s2) : (phoneAt cs).isSome = true := by
  obtain ⟨hg, ho, hd1, hcl, hs1, hd2, hs2, hall, hlen⟩ := h
  simp only [← drop_drop'] at hd1 hcl hs1 hd2 hs2 hall hlen
  have hcond : (((((((((cs.drop g).drop o).drop d1).drop cl).drop s1).drop
        d2).drop s2).take 4).all isAsciiDigit
      && (4 ≤ (((((((cs.drop g).drop o).drop d1).drop cl).drop s1).drop
        d2).drop s2).length)) = true := by
    rw [hall]
    simp only [Bool.true_and, decide_eq_true_eq]
    exact hlen
  unfold phoneAt
  apply pick_isSome g hg
  apply pick_isSome o ho
  apply pick_isSome d1 hd1
  apply pick_isSome cl hcl
  apply pick_isSome s1 hs1
  apply pick_isSome d2 hd2
  apply pick_isSome s2 hs2
  have hfin : (if ((((((((cs.drop g).drop o).drop d1).drop cl).drop s1).drop
        d2).drop s2).take 4).all isAsciiDigit
      && (4 ≤ (((((((cs.drop g).drop o).drop d1).drop cl).drop s1).drop
        d2).drop s2).length)
    then some (g + o + d1 + cl + s1 + d2 + s2 + 4) else none).isSome = true := by
    rw [if_pos hcond]
    rfl
  exact hfin

theorem phone_pos {cs : List Char} {n : Nat} (h : phoneAt cs = some n) :
    1 ≤ n ∧ n ≤ cs.length := by
  obtain ⟨g, o, d1, cl, s1, d2, s2, ⟨_, _, _, _, _, _, _, _, hlen⟩, hn⟩ :=
    phoneAt_some_inv h
  have hld : (cs.drop (g + o + d1 + cl + s1 + d2 + s2)).length
      = cs.length - (g + o + d1 + cl + s1 + d2 + s2) := List.length_drop _ _
  omega

theorem opt_mem_inv {p : Char → Bool} {o : Nat} {l : List Char}
    (h : o ∈ optChoices p l) :
    o = 0 ∨ (o = 1 ∧ ∃ c t, l = c :: t ∧ p c = true) := by
  cases l with
  | nil =>
    simp only [optChoices, List.mem_singleton] at h
    exact Or.inl h
  | cons c t =>
    simp only [optChoices] at h
    cases hp : p c with
    | false =>
      rw [hp] at h
      simp at h
      exact Or.inl h
    | true =>
      rw [hp] at h
      simp at h
      rcases h with h1 | h0
      · exact Or.inr ⟨h1, c, t, rfl, hp⟩
      · exact Or.inl h0

theorem opt_mem_le {p : Char → Bool} {o : Nat} {l : List Char}
    (h : o ∈ optChoices p l) : o ≤ 1 ∧ o ≤ l.length := by
  rcases opt_mem_inv h with h0 | ⟨h1, c, t, hl, _⟩
  · subst h0
    simp
  · subst h1
    subst hl
    simp

theorem seg_opt {p : Char → Bool} {o : Nat} {l : List Char}
    (h : o ∈ optChoices p l) : ∀ c ∈ l.take o, p c = true := by
  rcases opt_mem_inv h with h0 | ⟨h1, c0, t0, hl, hp0⟩
  · subst h0
    intro c hc
    simp at hc
  · subst h1
    subst hl
    intro c hc
    simp only [List.take_succ_cons, List.take_zero] at hc
    simp at hc
    subst hc
    exact hp0

theorem optChoices_pos {p : Char → Bool} {c : Char} (t : List Char)
    (hc : p c = true) : optChoices p (c :: t) = [1, 0] := by
  simp [optChoices, hc]

theorem optChoices_not {p : Char → Bool} {c : Char} (t : List Char)
    (hc : p c = false) : optChoices p (c :: t) = [0] := by
  simp [optChoices, hc]

theorem optChoices_zero_mem (p : Char → Bool) (l : List Char) :
    0 ∈ optChoices p l := by
  cases l with
  | nil => simp [optChoices]
  | cons c t =>
    cases hp : p c with
    | true => simp [optChoices, hp]
    | false => simp [optChoices, hp]

theorem optChoices_transfer {p : Char → Bool} {o : Nat} {xs ys : List Char}
    (zs : List Char) {t : Nat} (h : o ∈ optChoices p ((xs ++ ys).drop t))
    (hin : t + o ≤ xs.length) : o ∈ optChoices p ((xs ++ zs).drop t) := by
  rcases opt_mem_inv h with h0 | ⟨h1, c, tl, hl, hp⟩
  · subst h0
    exact optChoices_zero_mem p _
  · subst h1
    have hlt : t < xs.length := by omega
    have hh : ((xs ++ zs).drop t).head? = some c := by
      rw [head?_transfer xs zs t hlt, ← head?_transfer xs ys t hlt, hl]
      rfl
    rw [cons_of_head? hh, optChoices_pos _ hp]
    simp

theorem seg_digits {lo hi k : Nat} {l : List Char} (h : k ∈ digitsChoices lo hi l) :
    ∀ c ∈ l.take k, isAsciiDigit c = true := by
  unfold digitsChoices at h
  have hc := (List.mem_filter.mp h).2
  simp only [Bool.and_eq_true, decide_eq_true_eq] at hc
  exact fun c hm => List.all_eq_true.mp hc.1 c hm

theorem digits_mem_facts {lo hi k : Nat} {l : List Char}
    (h : k ∈ digitsChoices lo hi l) : lo ≤ k ∧ k ≤ l.length := by
  unfold digitsChoices at h
  have h1 := (List.mem_filter.mp h).1
  have hc := (List.mem_filter.mp h).2
  simp only [Bool.and_eq_true, decide_eq_true_eq] at hc
  have h2 := (List.mem_filter.mp h1).2
  simp only [decide_eq_true_eq] at h2
  exact ⟨h2, hc.2⟩

theorem digitsChoices_transfer {lo hi k : Nat} {xs ys : List Char}
    (zs : List Char) {t : Nat} (hm : k ∈ digitsChoices lo hi ((xs ++ ys).drop t))
    (hin : t + k ≤ xs.length) : k ∈ digitsChoices lo hi ((xs ++ zs).drop t) := by
  unfold digitsChoices at hm ⊢
  rw [List.mem_filter] at hm ⊢
  refine ⟨hm.1, ?_⟩
  have hc := hm.2
  simp only [Bool.and_eq_true, decide_eq_true_eq] at hc ⊢
  obtain ⟨hall, hkle⟩ := hc
  constructor
  · rw [take_transfer xs zs t k hin]
    rw [take_transfer xs ys t k hin] at hall
    exact hall
  · have l2 : ((xs ++ zs).drop t).length = xs.length + zs.length - t := by
      rw [List.length_drop, List.length_append]
    omega

theorem digitsChoices_nil_of_head {lo hi : Nat} {c : Char} {t : List Char}
    (hc : isAsciiDigit c = false) (hlo : 1 ≤ lo) :
    digitsChoices lo hi (c :: t) = [] := by
  unfold digitsChoices
  apply List.filter_eq_nil.mpr
  intro k hk
  have hklo : lo ≤ k := by
    have := (List.mem_filter.mp hk).2
    simpa using this
  intro hcond
  simp only [Bool.and_eq_true, decide_eq_true_eq] at hcond
  obtain ⟨hall, hkle⟩ := hcond
  obtain ⟨k', rfl⟩ : ∃ k', k = k' + 1 := ⟨k - 1, by omega⟩
  rw [List.take_succ_cons, List.all_cons, hc] at hall
  simp at hall

theorem prefix_mem_inv {g : Nat} {cs : List Char}
    (hg : g ∈ phonePrefixChoices cs) :
    g = 0 ∨ ∃ p, p ∈ optChoices (· = '+') cs ∧ ∃ k,
      k ∈ digitsChoices 1 3 (cs.drop p) ∧ ∃ s,
      s ∈ optChoices isSepChar (cs.drop (p + k)) ∧ g = p + k + s := by
  unfold phonePrefixChoices at hg
  rcases List.mem_append.mp hg with hA | h0
  · right
    rcases List.mem_flatMap.mp hA with ⟨p, hp, hrest⟩
    rcases List.mem_flatMap.mp hrest with ⟨k, hk, hmap⟩
    rcases List.mem_map.mp hmap with ⟨s, hsx, hgs⟩
    exact ⟨p, hp, k, hk, s, hsx, hgs.symm⟩
  · left
    simpa using h0

theorem prefix_mem {cs : List Char} {p k s : Nat}
    (hp : p ∈ optChoices (· = '+') cs) (hk : k ∈ digitsChoices 1 3 (cs.drop p))
    (hs : s ∈ optChoices isSepChar (cs.drop (p + k))) :
    p + k + s ∈ phonePrefixChoices cs := by
  unfold phonePrefixChoices
  apply List.mem_append.mpr
  left
  exact List.mem_flatMap.mpr ⟨p, hp,
    List.mem_flatMap.mpr ⟨k, hk, List.mem_map.mpr ⟨s, hs, rfl⟩⟩⟩

theorem prefix_zero_mem (cs : List Char) : 0 ∈ phonePrefixChoices cs := by
  unfold phonePrefixChoices
  exact List.mem_append.mpr (Or.inr (by simp))

theorem prefix_chars {g : Nat} {cs : List Char} (hg : g ∈ phonePrefixChoices cs) :
    ∀ x ∈ cs.take g, (isAsciiDigit x || x = '+' || isSepChar x) = true := by
  intro x hx
  rcases prefix_mem_inv hg with h0 | ⟨p, hp, k, hk, s, hs, hsum⟩
  · subst h0
    simp at hx
  · subst hsum
    rw [show p + k + s = p + (k + s) from by omega] at hx
    rcases mem_take_split hx with hm | hx2
    · have := seg_opt hp _ hm
      simp only [decide_eq_true_eq] at this
      simp [this]
    · rcases mem_take_split hx2 with hm | hx3
      · have := seg_digits hk _ hm
        simp [this]
      · rw [drop_drop'] at hx3
        have := seg_opt hs _ hx3
        simp [this]

theorem prefix_transfer {g : Nat} {xs ys : List Char} (zs : List Char)
    (hm : g ∈ phonePrefixChoices (xs ++ ys)) (hg : g ≤ xs.length) :
    g ∈ phonePrefixChoices (xs ++ zs) := by
  rcases prefix_mem_inv hm with h0 | ⟨p, hp, k, hk, s, hs, hsum⟩
  · subst h0
    exact prefix_zero_mem _
  · subst hsum
    obtain ⟨hk1, _⟩ := digits_mem_facts hk
    obtain ⟨hple, _⟩ := opt_mem_le hp
    have hp0 : p ∈ optChoices (· = '+') ((xs ++ ys).drop 0) := hp
    have hA : p ∈ optChoices (· = '+') (xs ++ zs) :=
      optChoices_transfer zs hp0 (by omega)
    have hB : k ∈ digitsChoices 1 3 ((xs ++ zs).drop p) :=
      digitsChoices_transfer zs hk (by omega)
    have hC : s ∈ optChoices isSepChar ((xs ++ zs).drop (p + k)) :=
      optChoices_transfer zs hs (by omega)
    exact prefix_mem hA hB hC

theorem phone_confine {cs : List Char} {n : Nat} (h : phoneAt cs = some n) :
    '[' ∉ cs.take n := by
  obtain ⟨g, o, d1, cl, s1, d2, s2, ⟨hg, ho, hd1, hcl, hs1, hd2, hs2, hall, hlen⟩,
    hn⟩ := phoneAt_some_inv h
  intro hmem
  rw [hn, show g + o + d1 + cl + s1 + d2 + s2 + 4
      = g + (o + (d1 + (cl + (s1 + (d2 + (s2 + 4)))))) from by omega] at hmem
  rcases mem_take_split hmem with hm | hmem
  · exact absurd (prefix_chars hg _ hm) (by decide)
  rcases mem_take_split hmem with hm | hmem
  · exact absurd (seg_opt ho _ hm) (by decide)
  rw [drop_drop'] at hmem
  rcases mem_take_split hmem with hm | hmem
  · exact absurd (seg_digits hd1 _ hm) (by decide)
  rw [drop_drop'] at hmem
  rcases mem_take_split hmem with hm | hmem
  · exact absurd (seg_opt hcl _ hm) (by decide)
  rw [drop_drop'] at hmem
  rcases mem_take_split hmem with hm | hmem
  · exact absurd (seg_opt hs1 _ hm) (by decide)
  rw [drop_drop'] at hmem
  rcases mem_take_split hmem with hm | hmem
  · exact absurd (seg_digits hd2 _ hm) (by decide)
  rw [drop_drop'] at hmem
  rcases mem_take_split hmem with hm | hmem
  · exact absurd (seg_opt hs2 _ hm) (by decide)
  rw [drop_drop'] at hmem
  exact absurd (List.all_eq_true.mp hall _ hmem) (by decide)

theorem phone_swap {xs ys zs : List Char} {nm : Nat}
    (h : phoneAt (xs ++ ys) = some nm) (hle : nm ≤ xs.length) :
    (phoneAt (xs ++ zs)).isSome = true := by
  obtain ⟨g, o, d1, cl, s1, d2, s2, ⟨hg, ho, hd1, hcl, hs1, hd2, hs2, hall, hlen⟩,
    hn⟩ := phoneAt_some_inv h
  subst hn
  have hpath : PhonePath (xs ++ zs) g o d1 cl s1 d2 s2 := by
    refine ⟨?_, ?_, ?_, ?_, ?_, ?_, ?_, ?_, ?_⟩
    · exact prefix_transfer zs hg (by omega)
    · exact optChoices_transfer zs ho (by omega)
    · exact digitsChoices_transfer zs hd1 (by omega)
    · exact optChoices_transfer zs hcl (by omega)
    · exact optChoices_transfer zs hs1 (by omega)
    · exact digitsChoices_transfer zs hd2 (by omega)
    · exact optChoices_transfer zs hs2 (by omega)
    · rw [take_transfer xs zs _ 4 (by omega)]
      rw [take_transfer xs ys _ 4 (by omega)] at hall
      exact hall
    · have l2 : ((xs ++ zs).drop (g + o + d1 + cl + s1 + d2 + s2)).length
          = xs.length + zs.length - (g + o + d1 + cl + s1 + d2 + s2) := by
        rw [List.length_drop, List.length_append]
      omega
  exact phonePath_isSome hpath

theorem phonePrefix_none_head {c : Char} (t : List Char)
    (hd : isAsciiDigit c = false) (hplus : c ≠ '+') :
    phonePrefixChoices (c :: t) = [0] := by
  unfold phonePrefixChoices
  have e1 : optChoices (· = '+') (c :: t) = [0] :=
    optChoices_not t (by simp [hplus])
  rw [e1]
  have e2 : digitsChoices 1 3 (c :: t) = [] := digitsChoices_nil_of_head hd (by omega)
  simp [List.drop_zero, e2]

theorem phone_none_head {c : Char} {t : List Char} (hd : isAsciiDigit c = false)
    (hplus : c ≠ '+') (hparen : c ≠ '(') : phoneAt (c :: t) = none := by
  cases hph : phoneAt (c :: t) with
  | none => rfl
  | some n =>
    exfalso
    obtain ⟨g, o, d1, cl, s1, d2, s2, ⟨hg, ho, hd1, _⟩, hn⟩ := phoneAt_some_inv hph
    rw [phonePrefix_none_head t hd hplus] at hg
    have hg0 : g = 0 := by simpa using hg
    subst hg0
    have ho' : o ∈ optChoices (· = '(') (c :: t) := ho
    rw [optChoices_not t (by simp [hparen])] at ho'
    have ho0 : o = 0 := by simpa using ho'
    subst ho0
    have hd1' : d1 ∈ digitsChoices 2 4 (c :: t) := hd1
    rw [digitsChoices_nil_of_head hd (by omega)] at hd1'
    simp at hd1'

theorem phone_onRepl : ∀ i rest, i < replChars.length →
    phoneAt (replChars.drop i ++ rest) = none := by
  intro i rest hi
  have h10 : replChars.length = 10 := rfl
  rw [h10] at hi
  interval_cases i
  · exact phone_none_head (by decide) (by decide) (by decide)
  · exact phone_none_head (by decide) (by decide) (by decide)
  · exact phone_none_head (by decide) (by decide) (by decide)
  · exact phone_none_head (by decide) (by decide) (by decide)
  · exact phone_none_head (by decide) (by decide) (by decide)
  · exact phone_none_head (by decide) (by decide) (by decide)
  · exact phone_none_head (by decide) (by decide) (by decide)
  · exact phone_none_head (by decide) (by decide) (by decide)
  · exact phone_none_head (by decide) (by decide) (by decide)
  · exact phone_none_head (by decide) (by decide) (by decide)

theorem phoneCF : CFMatcher phoneAt where
  empty := rfl
  onRepl := phone_onRepl
  confine := fun _ _ h => phone_confine h
  pos := fun _ _ h => phone_pos h
  swap := fun _ _ _ _ h hle => phone_swap h hle

/-! ### IP matcher obligations -/

theorem boundaryRight_cases {l : List Char} (h : boundaryRight l = true) :
    l = [] ∨ ∃ c t, l = c :: t ∧ isWordChar c = false := by
  cases l with
  | nil => exact Or.inl rfl
  | cons a t =>
    right
    refine ⟨a, t, rfl, ?_⟩
    cases hw : isWordChar a with
    | false => rfl
    | true =>
      rw [show boundaryRight (a :: t) = !isWordChar a from rfl, hw] at h
      exact absurd h (by simp)

/-- The facts each segment matcher of the IP pattern satisfies. -/
structure IpSeg (f : List Char → Option Nat) : Prop where
  pos : ∀ r n, f r = some n → 1 ≤ n ∧ n ≤ r.length
  chars : ∀ r n, f r = some n → ∀ x ∈ r.take n, (isAsciiDigit x || x = '.') = true
  lastw : ∀ r n, f r = some n → ∃ ch, r.get? (n - 1) = some ch ∧
    isAsciiDigit ch = true
  trail : ∀ r n, f r = some n → boundaryRight (r.drop n) = true
  swap : ∀ A B C nm, f (A ++ B) = some nm → nm < A.length →
    (f (A ++ C)).isSome = true
  headDigit : ∀ c t n, f (c :: t) = some n → isAsciiDigit c = true

theorem ipLvl0_some_inv {r : List Char} {n : Nat} (h : ipLvl0 r = some n) :
    n ∈ digitsChoices 1 3 r ∧ boundaryRight (r.drop n) = true := by
  unfold ipLvl0 at h
  obtain ⟨d, hd, hFd⟩ := pick_eq_some h
  have hF : (if boundaryRight (r.drop d) then some d else none) = some n := hFd
  split at hF
  · rename_i hbr
    injection hF with hdn
    subst hdn
    exact ⟨hd, hbr⟩
  · exact absurd hF (by simp)

theorem ipSeg_lvl0 : IpSeg ipLvl0 := by
  constructor
  · intro r n h
    obtain ⟨hd, _⟩ := ipLvl0_some_inv h
    exact digits_mem_facts hd
  · intro r n h x hx
    obtain ⟨hd, _⟩ := ipLvl0_some_inv h
    rw [seg_digits hd x hx]
    rfl
  · intro r n h
    obtain ⟨hd, _⟩ := ipLvl0_some_inv h
    obtain ⟨h1, h2⟩ := digits_mem_facts hd
    obtain ⟨ch, tl, hct⟩ : ∃ ch tl, r.drop (n - 1) = ch :: tl := by
      cases hc : r.drop (n - 1) with
      | nil =>
        have := congrArg List.length hc
        rw [List.length_drop] at this
        simp at this
        omega
      | cons a b => exact ⟨a, b, rfl⟩
    have hg : r.get? (n - 1) = some ch := by
      rw [get?_eq_head?_drop, hct]
      rfl
    have hmem : ch ∈ r.take n := by
      apply List.get?_mem
      rw [List.get?_take (show n - 1 < n from by omega), hg]
    exact ⟨ch, hg, seg_digits hd _ hmem⟩
  · intro r n h
    exact (ipLvl0_some_inv h).2
  · intro A B C nm h hlt
    obtain ⟨hd, hbr⟩ := ipLvl0_some_inv h
    have hd0 : nm ∈ digitsChoices 1 3 ((A ++ B).drop 0) := hd
    have hd1 : nm ∈ digitsChoices 1 3 (A ++ C) :=
      digitsChoices_transfer C hd0 (by omega)
    have hbr' : boundaryRight ((A ++ C).drop nm) = true := by
      have e1 : ((A ++ C).drop nm).head? = (A.drop nm).head? :=
        head?_transfer _ _ _ hlt
      have e2 : ((A ++ B).drop nm).head? = (A.drop nm).head? :=
        head?_transfer _ _ _ hlt
      exact (boundaryRight_congr (e1.trans e2.symm)).trans hbr
    unfold ipLvl0
    apply pick_isSome nm hd1
    have hfin : (if boundaryRight ((A ++ C).drop nm) then some nm
        else none).isSome = true := by
      rw [if_pos hbr']
      rfl
    exact hfin
  · intro c t n h
    obtain ⟨hd, _⟩ := ipLvl0_some_inv h
    obtain ⟨h1, _⟩ := digits_mem_facts hd
    have hmem : c ∈ (c :: t).take n := by
      obtain ⟨n', rfl⟩ : ∃ n', n = n' + 1 := ⟨n - 1, by omega⟩
      rw [List.take_succ_cons]
      exact List.mem_cons_self c _
    exact seg_digits hd c hmem

theorem ipLvlStep_some_inv {next : List Char → Option Nat} {r : List Char}
    {n : Nat} (h : ipLvlStep next r = some n) :
    ∃ a k, a ∈ digitsChoices 1 3 r ∧ (r.drop a).head? = some '.' ∧
      next ((r.drop a).tail) = some k ∧ n = a + 1 + k := by
  unfold ipLvlStep at h
  obtain ⟨a, ha, hFa⟩ := pick_eq_some h
  have hF : (if (r.drop a).head? = some '.' then
      (next ((r.drop a).tail)).map (fun k => a + 1 + k) else none) = some n := hFa
  split at hF
  · rename_i hdot
    rcases Option.map_eq_some'.mp hF with ⟨k, hk, hn⟩
    exact ⟨a, k, ha, hdot, hk, hn.symm⟩
  · exact absurd hF (by simp)

theorem ipLvlStep_none_head {next : List Char → Option Nat} {c : Char}
    {t : List Char} (hc : isAsciiDigit c = false) :
    ipLvlStep next (c :: t) = none := by
  unfold ipLvlStep
  rw [digitsChoices_nil_of_head hc (by omega)]
  rfl

theorem ipSeg_step {next : List Char → Option Nat} (hn : IpSeg next) :
    IpSeg (ipLvlStep next) := by
  constructor
  · intro r n h
    obtain ⟨a, k, ha, hdot, hk, hsum⟩ := ipLvlStep_some_inv h
    obtain ⟨ha1, ha2⟩ := digits_mem_facts ha
    obtain ⟨hk1, hk2⟩ := hn.pos _ _ hk
    have htd : (r.drop a).tail = r.drop (a + 1) := List.tail_drop r a
    rw [htd] at hk2
    have hld : (r.drop (a + 1)).length = r.length - (a + 1) := List.length_drop _ _
    have hne : r.drop a ≠ [] := by
      intro h0
      rw [h0] at hdot
      exact absurd hdot (by simp)
    have halt : a < r.length := by
      by_contra hge
      rw [List.drop_eq_nil_of_le (by omega)] at hne
      exact hne rfl
    omega
  · intro r n h x hx
    obtain ⟨a, k, ha, hdot, hk, hsum⟩ := ipLvlStep_some_inv h
    rw [hsum, show a + 1 + k = a + (1 + k) from by omega] at hx
    rcases mem_take_split hx with hm | hx2
    · rw [seg_digits ha x hm]
      rfl
    · rw [cons_of_head? hdot, show 1 + k = k + 1 from by omega,
        List.take_succ_cons] at hx2
      rcases List.mem_cons.mp hx2 with he | hm2
      · rw [he]
        rfl
      · exact hn.chars _ _ hk x hm2
  · intro r n h
    obtain ⟨a, k, ha, hdot, hk, hsum⟩ := ipLvlStep_some_inv h
    obtain ⟨hk1, _⟩ := hn.pos _ _ hk
    obtain ⟨ch, hch, hdig⟩ := hn.lastw _ _ hk
    refine ⟨ch, ?_, hdig⟩
    have htd : (r.drop a).tail = r.drop (a + 1) := List.tail_drop r a
    rw [htd] at hch
    rw [List.get?_drop] at hch
    rw [show a + 1 + (k - 1) = n - 1 from by omega] at hch
    exact hch
  · intro r n h
    obtain ⟨a, k, ha, hdot, hk, hsum⟩ := ipLvlStep_some_inv h
    have htr := hn.trail _ _ hk
    have htd : (r.drop a).tail = r.drop (a + 1) := List.tail_drop r a
    rw [htd, drop_drop'] at htr
    rw [hsum, show a + 1 + k = a + 1 + k from rfl]
    exact htr
  · intro A B C nm h hlt
    obtain ⟨a, k, ha, hdot, hk, hsum⟩ := ipLvlStep_some_inv h
    obtain ⟨ha1, _⟩ := digits_mem_facts ha
    obtain ⟨hk1, _⟩ := hn.pos _ _ hk
    have halt : a < A.length := by omega
    have hxd : A.drop a = '.' :: (A.drop a).tail :=
      cons_of_head? (by
        rw [← head?_transfer A B a halt]
        exact hdot)
    have htailB : ((A ++ B).drop a).tail = (A.drop a).tail ++ B := by
      rw [drop_append_le A B _ (Nat.le_of_lt halt), hxd]
      rfl
    have htailC : ((A ++ C).drop a).tail = (A.drop a).tail ++ C := by
      rw [drop_append_le A C _ (Nat.le_of_lt halt), hxd]
      rfl
    rw [htailB] at hk
    have hmidlen : (A.drop a).tail.length = A.length - a - 1 := by
      rw [List.length_tail, List.length_drop]
    have hrec := hn.swap (A.drop a).tail B C k hk (by omega)
    have ha0 : a ∈ digitsChoices 1 3 ((A ++ B).drop 0) := ha
    have ha' : a ∈ digitsChoices 1 3 (A ++ C) :=
      digitsChoices_transfer C ha0 (by omega)
    have hdot' : ((A ++ C).drop a).head? = some '.' := by
      rw [head?_transfer A C a halt, hxd]
      rfl
    unfold ipLvlStep
    apply pick_isSome a ha'
    have hfin : (if ((A ++ C).drop a).head? = some '.' then
        (next (((A ++ C).drop a).tail)).map (fun k' => a + 1 + k')
        else none).isSome = true := by
      rw [if_pos hdot', htailC]
      rcases Option.isSome_iff_exists.mp hrec with ⟨k', hk'⟩
      rw [hk']
      rfl
    exact hfin
  · intro c t n h
    obtain ⟨a, k, ha, hdot, hk, hsum⟩ := ipLvlStep_some_inv h
    obtain ⟨ha1, _⟩ := digits_mem_facts ha
    have hmem : c ∈ (c :: t).take a := by
      obtain ⟨a', rfl⟩ : ∃ a', a = a' + 1 := ⟨a - 1, by omega⟩
      rw [List.take_succ_cons]
      exact List.mem_cons_self c _
    exact seg_digits ha c hmem

theorem ipSegCore : IpSeg ipCore :=
  ipSeg_step (ipSeg_step (ipSeg_step ipSeg_lvl0))

theorem ipAt_some_inv {p : Option Char} {cs : List Char} {n : Nat}
    (h : ipAt p cs = some n) : boundaryLeft p = true ∧ ipCore cs = some n := by
  unfold ipAt at h
  split at h
  · exact absurd h (by simp)
  · rename_i hbl
    refine ⟨?_, h⟩
    cases hb : boundaryLeft p with
    | true => rfl
    | false =>
      rw [hb] at hbl
      exact absurd rfl hbl

theorem ipBM : BMatcher ipAt where
  empty := by
    intro p
    unfold ipAt ipCore
    split
    · rfl
    · rfl
  onRepl := by
    intro p i rest hi
    have h10 : replChars.length = 10 := rfl
    rw [h10] at hi
    unfold ipAt ipCore
    split
    · rfl
    · interval_cases i
      · exact ipLvlStep_none_head (by decide)
      · exact ipLvlStep_none_head (by decide)
      · exact ipLvlStep_none_head (by decide)
      · exact ipLvlStep_none_head (by decide)
      · exact ipLvlStep_none_head (by decide)
      · exact ipLvlStep_none_head (by decide)
      · exact ipLvlStep_none_head (by decide)
      · exact ipLvlStep_none_head (by decide)
      · exact ipLvlStep_none_head (by decide)
      · exact ipLvlStep_none_head (by decide)
  confine := by
    intro p cs n h hmem
    exact absurd (ipSegCore.chars _ _ (ipAt_some_inv h).2 '[' hmem) (by decide)
  pos := fun _ cs n h => ipSegCore.pos _ _ (ipAt_some_inv h).2
  swapLt := by
    intro p xs ys zs nm h hlt
    obtain ⟨hbl, hcore⟩ := ipAt_some_inv h
    have hsw := ipSegCore.swap xs ys zs nm hcore hlt
    unfold ipAt
    rw [if_neg (by rw [hbl]; simp)]
    exact hsw
  left := fun _ _ _ h => (ipAt_some_inv h).1
  lastWord := by
    intro p cs n h
    obtain ⟨ch, hch, hdig⟩ := ipSegCore.lastw _ _ (ipAt_some_inv h).2
    exact ⟨ch, hch, digit_word hdig⟩
  trailNW := fun _ _ _ h =>
    boundaryRight_cases (ipSegCore.trail _ _ (ipAt_some_inv h).2)
  nwFail := by
    intro q c t hw
    have hd : isAsciiDigit c = false := by
      cases hdc : isAsciiDigit c with
      | false => rfl
      | true => exact absurd (digit_word hdc) (by rw [hw]; simp)
    unfold ipAt ipCore
    split
    · rfl
    · exact ipLvlStep_none_head hd

/-! ### Idempotence of the privacy filter -/

/-- C9: `strip_sensitive` is idempotent: applying the four-pattern
`re.sub` pipeline twice gives the same result as applying it once.  Each
pass leaves no match of its own pattern in its output, later passes
cannot create a match of an earlier pattern, and a pass over match-free
text is the identity, so the second application changes nothing. -/
theorem strip_sensitive_idempotent (t : String) :
    strip_sensitive (strip_sensitive t) = strip_sensitive t := by
  have hposE : ∀ (p : Option Char) cs n, emailM p cs = some n →
      1 ≤ n ∧ n ≤ cs.length := fun _ cs n h => emailCF.pos cs n h
  have hposP : ∀ (p : Option Char) cs n, phoneM p cs = some n →
      1 ≤ n ∧ n ≤ cs.length := fun _ cs n h => phoneCF.pos cs n h
  obtain ⟨t1, ht1⟩ : ∃ t1,
      subFuel emailM replChars t.data.length none t.data = t1 := ⟨_, rfl⟩
  obtain ⟨t2, ht2⟩ : ∃ t2,
      subFuel phoneM replChars t1.length none t1 = t2 := ⟨_, rfl⟩
  obtain ⟨t3, ht3⟩ : ∃ t3,
      subFuel idCardAt replChars t2.length none t2 = t3 := ⟨_, rfl⟩
  obtain ⟨t4, ht4⟩ : ∃ t4,
      subFuel ipAt replChars t3.length none t3 = t4 := ⟨_, rfl⟩
  have e1 : Scan emailM none t.data t1 := by
    rw [← ht1]
    exact subFuel_scan emailM hposE t.data.length none t.data (Nat.le_refl _)
  have e2 : Scan phoneM none t1 t2 := by
    rw [← ht2]
    exact subFuel_scan phoneM hposP t1.length none t1 (Nat.le_refl _)
  have e3 : Scan idCardAt none t2 t3 := by
    rw [← ht3]
    exact subFuel_scan idCardAt idCardBM.pos t2.length none t2 (Nat.le_refl _)
  have e4 : Scan ipAt none t3 t4 := by
    rw [← ht4]
    exact subFuel_scan ipAt ipBM.pos t3.length none t3 (Nat.le_refl _)
  have f1 : ∀ i, emailAt (t1.drop i) = none := by
    have e1' : Scan (fun _ => emailAt) none t.data t1 := e1
    exact scan_noMatch_CF emailCF e1'
  have f2 : ∀ i, phoneAt (t2.drop i) = none := by
    have e2' : Scan (fun _ => phoneAt) none t1 t2 := e2
    exact scan_noMatch_CF phoneCF e2'
  have p12 : ∀ i, emailAt (t2.drop i) = none := scan_preserve_CF emailCF e2 f1
  have f3 : NoMatch idCardAt none t3 := scan_noMatch_B idCardBM e3
  have p13 : ∀ i, emailAt (t3.drop i) = none := scan_preserve_CF emailCF e3 p12
  have p23 : ∀ i, phoneAt (t3.drop i) = none := scan_preserve_CF phoneCF e3 f2
  have f4 : NoMatch ipAt none t4 := scan_noMatch_B ipBM e4
  have p34 : NoMatch idCardAt none t4 := scan_preserve_B idCardBM ipBM e4 f3
  have p14 : ∀ i, emailAt (t4.drop i) = none := scan_preserve_CF emailCF e4 p13
  have p24 : ∀ i, phoneAt (t4.drop i) = none := scan_preserve_CF phoneCF e4 p23
  have key : ∀ (u : List Char), (∀ i, emailAt (u.drop i) = none) →
      (∀ i, phoneAt (u.drop i) = none) → NoMatch idCardAt none u →
      NoMatch ipAt none u → strip_sensitive (String.mk u) = String.mk u := by
    intro u he hp hid hip
    unfold strip_sensitive
    have s1 : pySub emailM "[REDACTED]" (String.mk u) = String.mk u := by
      show String.mk (subFuel emailM replChars u.length none u) = String.mk u
      rw [subFuel_eq_of_noMatch emailM replChars u.length none u (fun i => he i)]
    rw [s1]
    have s2 : pySub phoneM "[REDACTED]" (String.mk u) = String.mk u := by
      show String.mk (subFuel phoneM replChars u.length none u) = String.mk u
      rw [subFuel_eq_of_noMatch phoneM replChars u.length none u (fun i => hp i)]
    rw [s2]
    have s3 : pySub idCardAt "[REDACTED]" (String.mk u) = String.mk u := by
      show String.mk (subFuel idCardAt replChars u.length none u) = String.mk u
      rw [subFuel_eq_of_noMatch idCardAt replChars u.length none u hid]
    rw [s3]
    show String.mk (subFuel ipAt replChars u.length none u) = String.mk u
    rw [subFuel_eq_of_noMatch ipAt replChars u.length none u hip]
  have hs4 : (strip_sensitive t).data = t4 := by
    show subFuel ipAt replChars
        (subFuel idCardAt replChars
          (subFuel phoneM replChars
            (subFuel emailM replChars t.data.length none t.data).length none
            (subFuel emailM replChars t.data.length none t.data)).length none
          (subFuel phoneM replChars
            (subFuel emailM replChars t.data.length none t.data).length none
            (subFuel emailM replChars t.data.length none t.data))).length none
        (subFuel idCardAt replChars
          (subFuel phoneM replChars
            (subFuel emailM replChars t.data.length none t.data).length none
            (subFuel emailM replChars t.data.length none t.data)).length none
          (subFuel phoneM replChars
            (subFuel emailM replChars t.data.length none t.data).length none
            (subFuel emailM replChars t.data.length none t.data))) = t4
    rw [ht1, ht2, ht3, ht4]
  have hst : strip_sensitive t = String.mk t4 := by
    rw [← hs4]
  rw [hst]
  exact key t4 p14 p24 p34 f4

end WhoAmI
